import Mathlib

/-!
Verification of the murmur graph-execution engine against its specification.

This file contains a shallow embedding, in Lean 4, of the engine found in
`src/murmur/graph.py`, `src/murmur/executor.py`, `src/murmur/core.py` and
`src/murmur/registry.py`:

* Python values flowing through the engine are modelled by `PyValue`
  (JSON-like values plus tuples and arbitrary stringifiable objects).
* `json.dump(..., default=str)` followed by `json.load` is modelled by
  `jsonRoundTrip` (tuples become lists, non-serializable objects become their
  string representation, JSON-native values are unchanged).  A persisted
  artifact file is represented by the Python value that `json.load` would
  produce from it, which loses no information because JSON texts and loaded
  values are in bijection for the fragment the engine writes.
* Python `dict`s keyed by strings are modelled as association lists whose
  assignment operation (`aupsert`) keeps the first-insertion position of a key,
  exactly like CPython dictionaries.
* Python string tests (`startswith`, slicing, `split(".", 1)`) are modelled on
  the code-point list `String.data`, which matches Python's code-point
  indexing.
* Iteration over the values of the Python `set`s appearing in the dependency
  graph is modelled by a canonical enumeration (insertion order for dependency
  sets, key order for the reverse-dependency sets).  Every property proved
  below is insensitive to the enumeration order, which CPython leaves
  unspecified.
* The two loops whose termination is not structural (Kahn's algorithm in
  `topological_sort` and the colouring DFS in `_detect_cycle`) are written
  with an explicit fuel argument so that they stay kernel-computable; the fuel
  supplied by the top-level entry points is proved sufficient, so the fuel-free
  Python semantics is preserved (for `topological_sort` the fuel bound is also
  exactly the termination measure of the Python `while` loop).
-/

namespace Murmur

/-! ## Python values and JSON serialization -/

mutual
/-- A Python value as the engine sees it: JSON-native values, plus tuples and
arbitrary non-serializable objects carrying their `str()` rendering.  Python's
`None` is `PyValue.none`. -/
inductive PyValue where
  | none
  | bool (b : Bool)
  | int (n : Int)
  | str (s : String)
  | list (xs : PyList)
  | tuple (xs : PyList)
  | dict (es : PyDict)
  | other (strRepr : String)
/-- A Python list of `PyValue`s (spelled as its own inductive so that all
recursion over values is structural). -/
inductive PyList where
  | nil
  | cons (hd : PyValue) (tl : PyList)
/-- A Python dict with string keys, in insertion order. -/
inductive PyDict where
  | nil
  | cons (key : String) (val : PyValue) (tl : PyDict)
end

/-- First value bound to `k` in a `PyDict` (Python `dict` lookup; keys are
unique in any dict the engine builds). -/
def pdGet : PyDict → String → Option PyValue
  | .nil, _ => Option.none
  | .cons k v tl, key => if k = key then some v else pdGet tl key

/-- The keys of a `PyDict`, in order. -/
def pdKeys : PyDict → List String
  | .nil => []
  | .cons k _ tl => k :: pdKeys tl

mutual
/-- Effect of `json.dump(v, f, default=str)` followed by `json.load`: tuples
are serialized as JSON arrays and come back as lists, and values JSON cannot
encode are replaced by their `str()` rendering (`default=str` in
`GraphExecutor._save_artifact`).  JSON-native values survive unchanged. -/
def jsonRoundTrip : PyValue → PyValue
  | .none => .none
  | .bool b => .bool b
  | .int n => .int n
  | .str s => .str s
  | .list xs => .list (jsonRoundTripList xs)
  | .tuple xs => .list (jsonRoundTripList xs)
  | .dict es => .dict (jsonRoundTripDict es)
  | .other r => .str r
/-- Round trip of each element of a list. -/
def jsonRoundTripList : PyList → PyList
  | .nil => .nil
  | .cons v tl => .cons (jsonRoundTrip v) (jsonRoundTripList tl)
/-- Round trip of each value of a dict. -/
def jsonRoundTripDict : PyDict → PyDict
  | .nil => .nil
  | .cons k v tl => .cons k (jsonRoundTrip v) (jsonRoundTripDict tl)
end

mutual
/-- Whether a value lies in the JSON-native fragment (no tuples, no objects
that only serialize through `default=str`). -/
def jsonPure : PyValue → Bool
  | .none => true
  | .bool _ => true
  | .int _ => true
  | .str _ => true
  | .list xs => jsonPureList xs
  | .tuple _ => false
  | .dict es => jsonPureDict es
  | .other _ => false
/-- `jsonPure` on every element of a list. -/
def jsonPureList : PyList → Bool
  | .nil => true
  | .cons v tl => jsonPure v && jsonPureList tl
/-- `jsonPure` on every value of a dict. -/
def jsonPureDict : PyDict → Bool
  | .nil => true
  | .cons _ v tl => jsonPure v && jsonPureDict tl
end

/-! ## String-keyed association lists (Python dicts at the engine level) -/

/-- Python `dict` lookup on an association list (first binding wins; all dicts
built by the engine have unique keys). -/
def alookup {α : Type} : List (String × α) → String → Option α
  | [], _ => Option.none
  | (k, v) :: rest, key => if k = key then some v else alookup rest key

/-- Python `dict` assignment `d[k] = v`: overwrites in place when the key
exists (keeping its original position, as CPython does) and appends otherwise. -/
def aupsert {α : Type} : List (String × α) → String → α → List (String × α)
  | [], k, v => [(k, v)]
  | (k', v') :: rest, k, v =>
      if k' = k then (k, v) :: rest else (k', v') :: aupsert rest k v

/-! ## Reference-string parsing -/

/-- Python `ref.split(".", 1)` restricted to the case distinction the engine
makes: `none` when there is no dot (`len(parts) == 1`), otherwise the text
before the first dot and everything after it. -/
def splitDot1 (cs : List Char) : Option (List Char × List Char) :=
  match cs.dropWhile (fun c => c != '.') with
  | [] => Option.none
  | _ :: rest => some (cs.takeWhile (fun c => c != '.'), rest)

/-! ## Transformers, registry and graph definitions -/

/-- A processing unit (`murmur.core.Transformer`): declared required input
keys, declared output keys, and the `process` operation from a resolved input
bag to an output bag plus named file artifacts.  Effect tags are irrelevant to
the engine and omitted.  The unit-failure case is out of scope of the claims
treated here, so `process` is total. -/
structure Transformer where
  inputs : List String
  outputs : List String
  process : PyDict → PyDict × List (String × String)

/-- A transformer registry (`murmur.registry.TransformerRegistry`) after
construction: a read-only map from unit name to unit.  `reg n = none` models
`registry.get` raising `KeyError`. -/
def Registry : Type := String → Option Transformer

/-- One node of a graph definition: `{"name": ..., "transformer": ...,
"inputs": {...}}`. -/
structure GNode where
  name : String
  transformer : String
  inputs : List (String × PyValue)

/-- A graph definition document: `{"name": ..., "nodes": [...]}`. -/
structure Graph where
  gname : String
  nodes : List GNode

/-- The `self.nodes` dict of `GraphExecutor` (also built locally by
`validate_graph`): node name to node, later duplicate names overwriting. -/
def nodesMapOf (g : Graph) : List (String × GNode) :=
  g.nodes.foldl (fun acc n => aupsert acc n.name n) []

/-! ## Reference resolution (`GraphExecutor._resolve_reference`) -/

/-- Python `d.get(k)` on a value expected to be a dict: the engine only ever
applies it to output bags, which are dicts; any non-dict (which would make
Python raise before `.get` is reached, a state the executor cannot produce) is
mapped to an absent value. -/
def pyGet (v : PyValue) (k : String) : PyValue :=
  match v with
  | .dict es => (pdGet es k).getD .none
  | _ => .none

/-- Body of `_resolve_reference` once the source is known to be the string `s`
with code points `cs` (`cs = s.data`).  Mirrors the Python line by line:
a leading `$` selects reference handling; a `config.` prefix reads
`config.get(ref[7:])`; otherwise `ref.split(".", 1)` with two parts reads
`node_outputs.get(node, {}).get(key)`; with one part the source string is
returned unchanged. -/
def resolveChars (s : String) (cs : List Char) (config : List (String × PyValue))
    (nodeOutputs : List (String × PyValue)) : PyValue :=
  match cs with
  | '$' :: ref =>
      if "config.".data.isPrefixOf ref then
        (alookup config (String.mk (ref.drop 7))).getD .none
      else
        match splitDot1 ref with
        | some (a, b) =>
            pyGet ((alookup nodeOutputs (String.mk a)).getD (.dict .nil)) (String.mk b)
        | Option.none => .str s
  | _ => .str s

/-- `GraphExecutor._resolve_reference(source, config, node_outputs)`:
non-strings and strings without the `$` sigil pass through untouched. -/
def resolve_reference (source : PyValue) (config : List (String × PyValue))
    (nodeOutputs : List (String × PyValue)) : PyValue :=
  match source with
  | .str s => resolveChars s s.data config nodeOutputs
  | v => v

/-! ## Dependency graph (`murmur.graph._build_dependency_graph`) -/

/-- The derived dependency graph: a Python dict from node name to the set of
node names it references, modelled as an association list with the set in
insertion order. -/
abbrev DepGraph : Type := List (String × List String)

/-- The node name a wiring value contributes to the dependency set: present
exactly when the value is a string starting with `$` but not `$config.` whose
remainder splits in two at a dot (`_build_dependency_graph`). -/
def refDepTarget (v : PyValue) : Option String :=
  match v with
  | .str s =>
      match s.data with
      | '$' :: ref =>
          if "config.".data.isPrefixOf ref then Option.none
          else
            match splitDot1 ref with
            | some (a, _) => some (String.mk a)
            | Option.none => Option.none
      | _ => Option.none
  | _ => Option.none

/-- Python `set.add` under the canonical insertion-order enumeration. -/
def setAdd (l : List String) (x : String) : List String :=
  if x ∈ l then l else l ++ [x]

/-- The dependency set contributed by one node's wiring. -/
def nodeDeps (n : GNode) : List String :=
  n.inputs.foldl
    (fun acc p =>
      match refDepTarget p.2 with
      | some t => setAdd acc t
      | Option.none => acc)
    []

/-- `_build_dependency_graph(graph)`: one entry per node (later duplicate node
names overwrite, as Python dict assignment does). -/
def build_dependency_graph (g : Graph) : DepGraph :=
  g.nodes.foldl (fun acc n => aupsert acc n.name (nodeDeps n)) []

/-- Dependency sets as a total function (`deps.get(node, set())`). -/
def depsOfFn (deps : DepGraph) : String → List String :=
  fun n => (alookup deps n).getD []

/-- A genuine cycle in a dependency-set function: a nonempty list of node
names in which every element's cyclic successor belongs to its dependency
set. -/
def IsCycleF (depsF : String → List String) (c : List String) : Prop :=
  c ≠ [] ∧ ∀ i < c.length, c.getD ((i + 1) % c.length) "" ∈ depsF (c.getD i "")

/-- A genuine cycle in a dependency graph. -/
def IsCycle (deps : DepGraph) (c : List String) : Prop :=
  IsCycleF (depsOfFn deps) c

/-- One dependency edge: `a` depends on `b`. -/
def DependsOn (deps : DepGraph) (a b : String) : Prop :=
  b ∈ depsOfFn deps a

/-- The node `n` lies on a cycle or transitively depends on a node of one. -/
def ReachesCycle (deps : DepGraph) (n : String) : Prop :=
  ∃ c m, IsCycle deps c ∧ m ∈ c ∧ Relation.ReflTransGen (DependsOn deps) n m

/-! ## Cycle detection (`murmur.graph._detect_cycle`) -/

/-- The three DFS colours: unvisited, on the current path, finished. -/
inductive Color where
  | white
  | gray
  | black
deriving DecidableEq

/-- Mutable state of `_detect_cycle`: the colour table and the current DFS
path. -/
structure DfsState where
  color : String → Color
  path : List String

/-- Control position inside the recursive `dfs`: entering a node, or iterating
over the remaining neighbours of a node. -/
inductive DfsTask where
  | visit (node : String)
  | nexts (ns : List String) (node : String)

/-- `path[path.index(neighbor):] + [neighbor]`: the suffix of the DFS path
from the first occurrence of the back-edge target, closed up. -/
def cycleFrom (path : List String) (n : String) : List String :=
  path.dropWhile (fun x => x != n) ++ [n]

/-- One fuelled step machine for the recursive `dfs` of `_detect_cycle`.
`visit node` colours the node gray, pushes it on the path and starts iterating
its dependency set; `nexts ns node` processes the remaining neighbours `ns`:
neighbours outside the colour table are skipped, a gray neighbour reports the
cycle `path[path.index(n):] + [n]`, a black neighbour is skipped, and a white
neighbour is visited recursively, aborting on a reported cycle.  When the
neighbours are exhausted the node is coloured black and popped.  The fuel
argument only forces structural termination; the top-level entry point passes
`dfsFuel`, which is proved large enough for fuel never to run out. -/
def dfsStep (keys : List String) (depsF : String → List String) :
    Nat → DfsTask → DfsState → DfsState × Option (List String)
  | 0, _, st => (st, Option.none)
  | fuel+1, .visit node, st =>
      dfsStep keys depsF fuel (.nexts (depsF node) node)
        ⟨fun m => if m = node then .gray else st.color m, st.path ++ [node]⟩
  | _+1, .nexts [] node, st =>
      (⟨fun m => if m = node then .black else st.color m, st.path.dropLast⟩, Option.none)
  | fuel+1, .nexts (n :: ns) node, st =>
      if n ∈ keys then
        match st.color n with
        | .gray => (st, some (cycleFrom st.path n))
        | .black => dfsStep keys depsF fuel (.nexts ns node) st
        | .white =>
            match dfsStep keys depsF fuel (.visit n) st with
            | (st', some c) => (st', some c)
            | (st', Option.none) => dfsStep keys depsF fuel (.nexts ns node) st'
      else dfsStep keys depsF fuel (.nexts ns node) st

/-- The largest dependency-set size in the graph. -/
def maxDepLen (deps : DepGraph) : Nat :=
  deps.foldr (fun p m => max p.2.length m) 0

/-- Fuel passed to `dfsStep`, proved sufficient below. -/
def dfsFuel (deps : DepGraph) : Nat :=
  (maxDepLen deps + 2) * deps.length

/-- The outer loop of `_detect_cycle`: scan the nodes in key order, starting a
DFS from every node still white. -/
def detectCycleGo (keys : List String) (depsF : String → List String) (fuel : Nat) :
    List String → DfsState → Option (List String)
  | [], _ => Option.none
  | k :: ks, st =>
      if st.color k = .white then
        match dfsStep keys depsF fuel (.visit k) st with
        | (_, some c) => some c
        | (st', Option.none) => detectCycleGo keys depsF fuel ks st'
      else detectCycleGo keys depsF fuel ks st

/-- `_detect_cycle(deps)`: the reported cycle path, or `none`. -/
def detect_cycle (deps : DepGraph) : Option (List String) :=
  let keys := deps.map Prod.fst
  detectCycleGo keys (depsOfFn deps) (dfsFuel deps) keys ⟨fun _ => .white, []⟩

/-! ## Specification apparatus for the DFS cycle detection -/

/-- Progress order on colours: white before gray before black.  Colours only
advance during the DFS. -/
def colorRank : Color → Nat
  | .white => 0
  | .gray => 1
  | .black => 2

/-- Number of keys still white. -/
def whiteCount (keys : List String) (color : String → Color) : Nat :=
  keys.countP (fun k => decide (color k = Color.white))

/-- Invariant of the DFS state: the path is a duplicate-free dependency chain
of keys, the gray nodes are exactly the path, black nodes only depend on black
keys, and no cycle consists of black nodes only. -/
def DfsInv (keys : List String) (depsF : String → List String) (st : DfsState) : Prop :=
  List.Chain' (fun a b => b ∈ depsF a) st.path
  ∧ st.path.Nodup
  ∧ (∀ m, st.color m = .gray ↔ m ∈ st.path)
  ∧ (∀ m ∈ st.path, m ∈ keys)
  ∧ (∀ b, st.color b = .black → ∀ d ∈ depsF b, d ∈ keys → st.color d = .black)
  ∧ ¬ ∃ c, IsCycleF depsF c ∧ ∀ x ∈ c, st.color x = .black

/-- Shape of a reported cycle path: a genuine cycle written as an ordered
list of node names whose first element is repeated at the end. -/
def CycleReport (depsF : String → List String) (c : List String) : Prop :=
  ∃ x xs, c = x :: xs ++ [x] ∧ IsCycleF depsF (x :: xs)

/-- State facts holding after a sub-search that found no cycle: the invariant
is maintained and colours only advanced. -/
def DfsPostNone (keys : List String) (depsF : String → List String)
    (st r : DfsState) : Prop :=
  DfsInv keys depsF r
  ∧ (∀ m, colorRank (st.color m) ≤ colorRank (r.color m))

/-! ## Graph validation (`murmur.graph.validate_graph`) -/

/-- The failure conditions `validate_graph` can raise, carrying exactly the
data its messages render.  `keyError` is the uncaught `KeyError` escaping from
`registry.get(source_transformer_name)` when a reference points at a node
whose own transformer is unregistered. -/
inductive VErr where
  | unknownTransformer (node transformerName : String)
  | invalidRefFormat (node source : String)
  | unknownNode (node inputKey sourceNode : String)
  | unknownOutput (node inputKey sourceOutput transformerName : String) (outputs : List String)
  | keyError (transformerName : String)
  | circularDependency (path : List String)
deriving DecidableEq

/-- The wiring check `validate_graph` performs for one input entry. -/
def checkInput (nodesMap : List (String × GNode)) (reg : Registry)
    (nodeName inputKey : String) (source : PyValue) : Except VErr Unit :=
  match source with
  | .str s =>
      match s.data with
      | '$' :: ref =>
          if "config.".data.isPrefixOf ref then .ok ()
          else
            match splitDot1 ref with
            | Option.none => .error (.invalidRefFormat nodeName s)
            | some (a, b) =>
                let sourceNode := String.mk a
                let sourceOutput := String.mk b
                match alookup nodesMap sourceNode with
                | Option.none => .error (.unknownNode nodeName inputKey sourceNode)
                | some srcNode =>
                    match reg srcNode.transformer with
                    | Option.none => .error (.keyError srcNode.transformer)
                    | some t =>
                        if sourceOutput ∈ t.outputs then .ok ()
                        else .error (.unknownOutput nodeName inputKey sourceOutput
                          srcNode.transformer t.outputs)
      | _ => .ok ()
  | _ => .ok ()

/-- The wiring checks for a node's inputs, in wiring order, stopping at the
first failure (the Python `raise`). -/
def checkInputs (nodesMap : List (String × GNode)) (reg : Registry) (nodeName : String) :
    List (String × PyValue) → Except VErr Unit
  | [] => .ok ()
  | (k, src) :: rest =>
      match checkInput nodesMap reg nodeName k src with
      | .ok _ => checkInputs nodesMap reg nodeName rest
      | .error e => .error e

/-- The per-node phase: the transformer-existence check followed by the wiring
checks. -/
def checkNode (nodesMap : List (String × GNode)) (reg : Registry) (n : GNode) :
    Except VErr Unit :=
  match reg n.transformer with
  | Option.none => .error (.unknownTransformer n.name n.transformer)
  | some _ => checkInputs nodesMap reg n.name n.inputs

/-- All per-node phases, in definition order, stopping at the first failure. -/
def checkNodes (nodesMap : List (String × GNode)) (reg : Registry) :
    List GNode → Except VErr Unit
  | [] => .ok ()
  | n :: rest =>
      match checkNode nodesMap reg n with
      | .ok _ => checkNodes nodesMap reg rest
      | .error e => .error e

/-- `validate_graph(graph, registry)`: per-node checks in order, then the
cycle check on the derived dependency graph. -/
def validate_graph (g : Graph) (reg : Registry) : Except VErr Unit :=
  match checkNodes (nodesMapOf g) reg g.nodes with
  | .error e => .error e
  | .ok _ =>
      match detect_cycle (build_dependency_graph g) with
      | some c => .error (.circularDependency c)
      | Option.none => .ok ()

/-! ## Topological order (`murmur.executor.topological_sort`) -/

/-- The nodes that depend on `b` (`reverse_deps[b]`), under the canonical
key-order enumeration of the Python set. -/
def dependentsOf (keys : List String) (depsF : String → List String) (b : String) :
    List String :=
  keys.filter (fun n => decide (b ∈ depsF n))

/-- The inner `for dependent in reverse_deps[node]` loop of Kahn's algorithm:
decrement each dependent's in-degree and enqueue it when the count reaches
zero. -/
def processDependents : List String → List String → (String → Int) →
    List String × (String → Int)
  | [], queue, ind => (queue, ind)
  | d :: ds, queue, ind =>
      let ind' : String → Int := fun m => if m = d then ind m - 1 else ind m
      processDependents ds (if ind' d = 0 then queue ++ [d] else queue) ind'

/-- The `while queue` loop of `topological_sort`.  The fuel only forces
structural termination: it is at least the loop's termination measure (queue
length plus the positive in-degrees summed over the keys), so when it reaches
zero the queue is provably empty and returning the accumulated result is
exactly what the Python loop does. -/
def kahnLoop (keys : List String) (depsF : String → List String) :
    Nat → List String → (String → Int) → List String → List String
  | 0, _, _, result => result
  | _+1, [], _, result => result
  | fuel+1, node :: queue, ind, result =>
      let pd := processDependents (dependentsOf keys depsF node) queue ind
      kahnLoop keys depsF fuel pd.1 pd.2 (result ++ [node])

/-- `topological_sort(deps)` by Kahn's algorithm: in-degrees are the
dependency-set sizes, the queue starts with the zero-degree nodes in key
order. -/
def topological_sort (deps : DepGraph) : List String :=
  let keys := deps.map Prod.fst
  let depsF := depsOfFn deps
  kahnLoop keys depsF (keys.length + (deps.map (fun p => p.2.length)).sum)
    (keys.filter (fun n => decide ((depsF n).length = 0)))
    (fun n => ((depsF n).length : Int))
    []

/-! ## Specification apparatus for Kahn's algorithm -/

/-- Sum over the keys of the positive part of the in-degree table. -/
def degSum (keys : List String) (ind : String → Int) : Nat :=
  (keys.map (fun n => (ind n).toNat)).sum

/-- Termination measure of the Python `while queue` loop: queue length plus
the in-degrees still outstanding. -/
def kmeasure (keys : List String) (queue : List String) (ind : String → Int) : Nat :=
  queue.length + degSum keys ind

/-- Loop invariant of Kahn's algorithm: emitted and queued nodes are distinct
keys; every key's in-degree counts its dependencies not yet emitted; a key's
in-degree is zero exactly when it has been emitted or queued; and every
emitted node's dependencies were emitted strictly before it. -/
def KahnInv (keys : List String) (depsF : String → List String)
    (queue : List String) (ind : String → Int) (result : List String) : Prop :=
  (result ++ queue).Nodup
  ∧ (∀ n ∈ result ++ queue, n ∈ keys)
  ∧ (∀ n ∈ keys, ind n = ((depsF n).length : Int)
      - ((depsF n).countP (fun d => decide (d ∈ keys ∧ d ∈ result)) : Int))
  ∧ (∀ n ∈ keys, (ind n = 0 ↔ n ∈ result ++ queue))
  ∧ (∀ j (hj : j < result.length), ∀ d ∈ depsF (result.get ⟨j, hj⟩), d ∈ result.take j)

/-- What holds of the final result of `topological_sort`: distinct keys; a key
is emitted exactly when all its dependencies are keys that are emitted; and
dependencies precede dependents. -/
def KahnPost (keys : List String) (depsF : String → List String) (R : List String) : Prop :=
  R.Nodup
  ∧ (∀ n ∈ R, n ∈ keys)
  ∧ (∀ n ∈ keys, (n ∈ R ↔ ∀ d ∈ depsF n, d ∈ keys ∧ d ∈ R))
  ∧ (∀ j (hj : j < R.length), ∀ d ∈ depsF (R.get ⟨j, hj⟩), d ∈ R.take j)

/-! ## The executor (`murmur.executor.GraphExecutor.execute`) -/

/-- Instrumentation record of one `transformer.process` invocation: the node,
the resolved input bag passed to the unit, and the file artifacts the unit
returned.  Recording it changes no engine behaviour. -/
structure InvokeRec where
  node : String
  inputBag : PyDict
  outArtifacts : List (String × String)

/-- The run state `execute` threads through the node loop: the per-node
output map, the merged file-artifact map, the artifact-store contents (each
persisted file represented by the value `json.load` would read from it), and
the list of unit invocations performed. -/
structure ExecState where
  nodeOutputs : List (String × PyValue)
  allArtifacts : List (String × String)
  store : List (String × PyValue)
  invoked : List InvokeRec

/-- The file name `f"{run_id}_{node_name}.json"` keying the artifact store. -/
def artifactKey (runId nodeName : String) : String :=
  runId ++ "_" ++ nodeName

/-- The `resolved_inputs` dict: one entry per wiring key, each resolved by
`_resolve_reference`. -/
def resolveBag (inputs : List (String × PyValue)) (config : List (String × PyValue))
    (nodeOutputs : List (String × PyValue)) : PyDict :=
  match inputs with
  | [] => .nil
  | (k, src) :: rest =>
      .cons k (resolve_reference src config nodeOutputs) (resolveBag rest config nodeOutputs)

/-- The `if cached_data is not None` guard on a loaded artifact: a stored
file whose JSON content is `null` loads as Python `None` and is treated as a
cache miss, exactly like a missing file. -/
def nullToMiss : Option PyValue → Option PyValue
  | some PyValue.none => Option.none
  | some v => some v
  | Option.none => Option.none

/-- One iteration of the executor's node loop: the cache branch (load and
adopt a prior artifact, skipping the unit, when the node is marked cached, an
artifact directory is configured and the artifact exists and is not JSON
`null`), otherwise resolve the inputs, invoke the unit, record outputs and
artifacts, and persist the output bag when an artifact directory is
configured.  A missing node or transformer models the uncaught Python
`KeyError`. -/
def execNode (nodesMap : List (String × GNode)) (reg : Registry)
    (config : List (String × PyValue)) (artifactDir : Bool) (cached : List String)
    (runId : String) (st : ExecState) (nodeName : String) : Except String ExecState :=
  let loaded : Option PyValue :=
    if nodeName ∈ cached then
      if artifactDir then nullToMiss (alookup st.store (artifactKey runId nodeName))
      else Option.none
    else Option.none
  match loaded with
  | some v => .ok { st with nodeOutputs := aupsert st.nodeOutputs nodeName v }
  | Option.none =>
      match alookup nodesMap nodeName with
      | Option.none => .error ("KeyError: " ++ nodeName)
      | some node =>
          match reg node.transformer with
          | Option.none => .error ("Unknown transformer: " ++ node.transformer)
          | some t =>
              let bag := resolveBag node.inputs config st.nodeOutputs
              let out := t.process bag
              .ok { nodeOutputs := aupsert st.nodeOutputs nodeName (.dict out.1),
                    allArtifacts := out.2.foldl (fun a p => aupsert a p.1 p.2) st.allArtifacts,
                    store :=
                      if artifactDir then
                        aupsert st.store (artifactKey runId nodeName)
                          (jsonRoundTrip (.dict out.1))
                      else st.store,
                    invoked := st.invoked ++ [⟨nodeName, bag, out.2⟩] }

/-- The executor's node loop over the execution order. -/
def execGo (nodesMap : List (String × GNode)) (reg : Registry)
    (config : List (String × PyValue)) (artifactDir : Bool) (cached : List String)
    (runId : String) : List String → ExecState → Except String ExecState
  | [], st => .ok st
  | n :: rest, st =>
      match execNode nodesMap reg config artifactDir cached runId st n with
      | .error e => .error e
      | .ok st' => execGo nodesMap reg config artifactDir cached runId rest st'

/-- `GraphExecutor.execute(config)` for an executor constructed with the given
graph, registry, artifact directory (present or not, with `store₀` its current
contents), cached-node set and run id: derive the dependency graph, compute
the order, and run the node loop from the empty run state.  The returned
`ExecState` carries the final `TransformerIO(data=node_outputs,
artifacts=all_artifacts)` in its first two fields. -/
def execute (g : Graph) (reg : Registry) (artifactDir : Bool) (cached : List String)
    (runId : String) (config : List (String × PyValue))
    (store₀ : List (String × PyValue)) : Except String ExecState :=
  execGo (nodesMapOf g) reg config artifactDir cached runId
    (topological_sort (build_dependency_graph g))
    ⟨[], [], store₀, []⟩

/-! ## Concrete fixtures used by counterexamples and witnesses -/

/-- A transformer for fixtures: one required input `value`, one declared
output `result`, echoing the keys of the bag it receives under `got`. -/
def echoT : Transformer :=
  ⟨["value"], ["result"], fun bag => (.cons "result" (.dict bag) .nil, [])⟩

/-- A registry holding only `echoT` under the name `"echo"`. -/
def regEcho : Registry := fun n => if n = "echo" then some echoT else Option.none

/-- A graph whose single node wires the input key `nothing` to the string
`"$foo"`, which carries the `$` sigil but matches neither reference form. -/
def gDollarNoDot : Graph :=
  ⟨"t", [⟨"n", "echo", [("nothing", .str "$foo")]⟩]⟩

/-- A concrete dependency map with the cycle `a -> b -> a`, a node `c`
depending on the cycle, and an independent node `d`. -/
def depsCyc : DepGraph := [("a", ["b"]), ("b", ["a"]), ("c", ["a"]), ("d", [])]

/-- A concrete acyclic dependency map: `b` and `c` depend on `a`, `c` also on
`b`. -/
def depsAcyc : DepGraph := [("a", []), ("b", ["a"]), ("c", ["a", "b"])]

/-- A graph wired into a reference cycle through declared outputs: node `a`
reads `$b.result` and node `b` reads `$a.result`, both bound to `echo`. -/
def gCycle : Graph :=
  ⟨"t", [⟨"a", "echo", [("value", .str "$b.result")]⟩,
         ⟨"b", "echo", [("value", .str "$a.result")]⟩]⟩

/-- The same reference cycle, but node `a` is bound to an unregistered
transformer. -/
def gCycleBadT : Graph :=
  ⟨"t", [⟨"a", "missing", [("value", .str "$b.result")]⟩,
         ⟨"b", "echo", [("value", .str "$a.result")]⟩]⟩

/-- A single node referencing the nonexistent node `zzz`. -/
def gBadRef : Graph :=
  ⟨"t", [⟨"a", "echo", [("value", .str "$zzz.result")]⟩]⟩

/-- A node with an unknown transformer listed before a node referencing the
nonexistent node `zzz`. -/
def gBadRefPreempt : Graph :=
  ⟨"t", [⟨"a", "missing", []⟩,
         ⟨"b", "echo", [("value", .str "$zzz.result")]⟩]⟩


/-! ## Additional executor fixtures and apparatus -/

/-- Run state of a successful execution, with a default for the error case. -/
def okOr (d : ExecState) : Except String ExecState → ExecState
  | .ok st => st
  | .error _ => d

/-- The empty run state. -/
def emptySt : ExecState := ⟨[], [], [], []⟩

/-- Merging the file artifacts of a list of invocations, in order
(the accumulated effect of `all_artifacts.update(output_io.artifacts)`). -/
def artFold (recs : List InvokeRec) (acc : List (String × String)) : List (String × String) :=
  recs.foldl (fun a r => r.outArtifacts.foldl (fun m p => aupsert m p.1 p.2) a) acc

/-- Every value of an association list lies in the JSON-native fragment. -/
def allValsPure (l : List (String × PyValue)) : Bool :=
  l.all (fun p => jsonPure p.2)

/-- The state produced by one full (non-cached) execution of a node: resolve
the wiring, run the unit, record and persist. -/
def execResult (t : Transformer) (node : GNode) (config : List (String × PyValue))
    (artifactDir : Bool) (rid : String) (st : ExecState) (n : String) : ExecState :=
  let bag := resolveBag node.inputs config st.nodeOutputs
  let out := t.process bag
  { nodeOutputs := aupsert st.nodeOutputs n (.dict out.1),
    allArtifacts := out.2.foldl (fun a p => aupsert a p.1 p.2) st.allArtifacts,
    store :=
      if artifactDir then
        aupsert st.store (artifactKey rid n) (jsonRoundTrip (.dict out.1))
      else st.store,
    invoked := st.invoked ++ [⟨n, bag, out.2⟩] }

/-- A one-node graph wiring the literal `"lit"` to the key `value`. -/
def gSolo : Graph := ⟨"t", [⟨"n", "echo", [("value", .str "lit")]⟩]⟩

/-- Final state of executing `gSolo` uncached with an artifact directory. -/
def st1Solo : ExecState := okOr emptySt (execute gSolo regEcho true [] "r" [] [])

/-- A node whose wiring key `other` differs from its unit's declared input
`value`. -/
def gMismatch : Graph := ⟨"t", [⟨"n", "echo", [("other", .str "lit")]⟩]⟩

/-- Final state of executing `gMismatch`. -/
def stMismatch : ExecState := okOr emptySt (execute gMismatch regEcho false [] "r" [] [])

/-- A unit returning a non-JSON-serializable value under the key `v`. -/
def unitT : Transformer := ⟨[], ["v"], fun _ => (.cons "v" (.other "x") .nil, [])⟩

/-- A registry holding only `unitT` under the name `"unit"`. -/
def regUnit : Registry := fun n => if n = "unit" then some unitT else Option.none

/-- A one-node graph bound to `unitT`. -/
def gImpure : Graph := ⟨"t", [⟨"n", "unit", []⟩]⟩

/-- First run of `gImpure` with an artifact directory. -/
def stImpure1 : ExecState := okOr emptySt (execute gImpure regUnit true [] "r" [] [])

/-- Second run of `gImpure` from the first run's artifact store, with the node
cached. -/
def stImpure2 : ExecState :=
  okOr emptySt (execute gImpure regUnit true ["n"] "r" [] stImpure1.store)

/-- Final state of executing `gSolo` with node `n` cached against a prior
artifact holding the empty bag. -/
def stC6 : ExecState :=
  okOr emptySt (execute gSolo regEcho true ["n"] "r" [] [("r_n", .dict .nil)])

/-- Final state of executing `gSolo` with node `n` cached against a prior
artifact whose JSON content is `null`. -/
def stNullC6 : ExecState :=
  okOr emptySt (execute gSolo regEcho true ["n"] "r" [] [("r_n", PyValue.none)])

/-- A unit producing a named file artifact. -/
def artT : Transformer := ⟨[], ["r"], fun _ => (.cons "r" .none .nil, [("file1", "path1")])⟩

/-- A registry holding only `artT` under the name `"art"`. -/
def regArt : Registry := fun n => if n = "art" then some artT else Option.none

/-- A one-node graph bound to `artT`. -/
def gArt : Graph := ⟨"t", [⟨"m", "art", []⟩]⟩

/-- Executing `gArt` with node `m` cached against a prior artifact: the unit's
file artifact is never produced. -/
def stArt : ExecState :=
  okOr emptySt (execute gArt regArt true ["m"] "rr" [] [("rr_m", .dict .nil)])

/-! # Theorems -/

/-! ## Small string facts used to reason about reference syntax -/

/-- A list is a Boolean prefix of itself followed by anything. -/
theorem isPrefixOf_append_self : ∀ (l₁ l₂ : List Char), l₁.isPrefixOf (l₁ ++ l₂) = true := by
  intro l₁
  induction l₁ with
  | nil => intro l₂; simp [List.isPrefixOf]
  | cons a as ih => intro l₂; simp [List.isPrefixOf, ih]

/-- Splitting the code points of `"$config." ++ k`. -/
theorem data_dollar_config (k : String) :
    ("$config." ++ k).data = '$' :: ("config.".data ++ k.data) := by
  have h : ("$config." ++ k).data = "$config.".data ++ k.data := String.data_append _ _
  simp only [h]
  rfl

/-- Rebuilding a string from its code points is the identity. -/
theorem mk_data (s : String) : String.mk s.data = s := rfl

/-- Dropping the seven code points of `"config."` from `"config." ++ k`
leaves exactly `k`. -/
theorem drop_config_data (k : String) : ("config.".data ++ k.data).drop 7 = k.data := by
  have h : "config.".data.length = 7 := rfl
  rw [← h, List.drop_left]

/-! ## Round trip of serialization -/

/-- Resolution of a well-formed config reference, for any node-output state. -/
theorem resolve_config_eq (k : String) (config outs : List (String × PyValue)) :
    resolve_reference (.str ("$config." ++ k)) config outs
      = (alookup config k).getD .none := by
  simp only [resolve_reference, data_dollar_config, resolveChars,
    isPrefixOf_append_self, if_true]
  rw [@List.drop_left' Char ['c', 'o', 'n', 'f', 'i', 'g', '.'] k.data 7 rfl]

/-! ## Claim C7: config references -/

/-- C7: resolving a `$config.<key>` reference reads the run configuration at
that key; the result does not depend on the node-output state (hence not on
which node consumes the reference nor on its position in the execution
order), and an absent configuration key resolves to Python `None` instead of
failing. -/
theorem config_ref_resolution (k : String)
    (config nodeOutputs nodeOutputs' : List (String × PyValue)) :
    resolve_reference (.str ("$config." ++ k)) config nodeOutputs
      = (alookup config k).getD .none
    ∧ resolve_reference (.str ("$config." ++ k)) config nodeOutputs
      = resolve_reference (.str ("$config." ++ k)) config nodeOutputs'
    ∧ (alookup config k = Option.none →
        resolve_reference (.str ("$config." ++ k)) config nodeOutputs = PyValue.none) := by
  refine ⟨resolve_config_eq k config nodeOutputs, ?_, ?_⟩
  · rw [resolve_config_eq k config nodeOutputs, resolve_config_eq k config nodeOutputs']
  · intro h
    rw [resolve_config_eq k config nodeOutputs, h]
    rfl

/-- Witness for C7 at a concrete configuration: present and absent keys, and
two different node-output states. -/
theorem config_ref_resolution_witness :
    resolve_reference (.str ("$config." ++ "start")) [("start", .int 5)] []
      = (alookup [("start", .int 5)] "start").getD .none
    ∧ resolve_reference (.str ("$config." ++ "miss")) [("start", .int 5)] [] = PyValue.none :=
  ⟨(config_ref_resolution "start" [("start", .int 5)] [] [("x", .int 0)]).1,
   (config_ref_resolution "miss" [("start", .int 5)] [] []).2.2 rfl⟩

/-! ## Claim C8: classification of reference strings -/

/-- C8 (amended): non-string wiring values and strings without the `$` sigil
are literals, passed through untouched by the resolver and accepted by
validation; `$config.<key>` strings resolve as configuration references;
`$`-strings whose remainder contains a dot resolve as node-output references;
and a `$`-string with no dot after the sigil is passed through unchanged by
the resolver but is rejected by `validate_graph` as an invalid reference
format (the graph does not validate). -/
theorem reference_classification :
    (∀ (v : PyValue) config outs, (∀ s, v ≠ .str s) → resolve_reference v config outs = v)
    ∧ (∀ nm (reg : Registry) n k (v : PyValue), (∀ s, v ≠ .str s) →
        checkInput nm reg n k v = .ok ())
    ∧ (∀ (s : String) config outs, s.data.head? ≠ some '$' →
        resolve_reference (.str s) config outs = .str s)
    ∧ (∀ nm (reg : Registry) n k (s : String), s.data.head? ≠ some '$' →
        checkInput nm reg n k (.str s) = .ok ())
    ∧ (∀ (k : String) config outs,
        resolve_reference (.str ("$config." ++ k)) config outs
          = (alookup config k).getD .none)
    ∧ (∀ (s : String) ref a b config outs, s.data = '$' :: ref →
        "config.".data.isPrefixOf ref = false →
        splitDot1 ref = some (a, b) →
        resolve_reference (.str s) config outs
          = pyGet ((alookup outs (String.mk a)).getD (.dict .nil)) (String.mk b))
    ∧ (∀ (s : String) ref config outs, s.data = '$' :: ref →
        "config.".data.isPrefixOf ref = false →
        splitDot1 ref = Option.none →
        resolve_reference (.str s) config outs = .str s)
    ∧ (∀ nm (reg : Registry) n k (s : String) ref, s.data = '$' :: ref →
        "config.".data.isPrefixOf ref = false →
        splitDot1 ref = Option.none →
        checkInput nm reg n k (.str s) = .error (.invalidRefFormat n s)) := by
  refine ⟨?_, ?_, ?_, ?_, resolve_config_eq, ?_, ?_, ?_⟩
  · intro v config outs h
    cases v with
    | str s => exact absurd rfl (h s)
    | _ => rfl
  · intro nm reg n k v h
    cases v with
    | str s => exact absurd rfl (h s)
    | _ => rfl
  · intro s config outs h
    rw [resolve_reference]
    cases hd : s.data with
    | nil => rfl
    | cons c cs =>
        rw [hd] at h
        unfold resolveChars
        split
        · next ref heq =>
            exfalso
            cases heq
            exact h rfl
        · rfl
  · intro nm reg n k s h
    rw [checkInput]
    cases hd : s.data with
    | nil => rfl
    | cons c cs =>
        rw [hd] at h
        split
        · next ref heq =>
            exfalso
            cases heq
            exact h rfl
        · rfl
  · intro s ref a b config outs hd hpfx hsplit
    rw [resolve_reference, hd]
    unfold resolveChars
    split
    · next ref' heq =>
        injection heq with h1 h2
        subst h2
        rw [if_neg (by simp [hpfx]), hsplit]
    · next hne => exact absurd rfl (hne ref)
  · intro s ref config outs hd hpfx hsplit
    rw [resolve_reference, hd]
    unfold resolveChars
    split
    · next ref' heq =>
        injection heq with h1 h2
        subst h2
        rw [if_neg (by simp [hpfx]), hsplit]
    · next hne => exact absurd rfl (hne ref)
  · intro nm reg n k s ref hd hpfx hsplit
    rw [checkInput, hd]
    split
    · next ref' heq =>
        injection heq with h1 h2
        subst h2
        rw [if_neg (by simp [hpfx]), hsplit]
    · next hne => exact absurd rfl (hne ref)

/-- Witness for C8 at concrete inputs: a non-string literal, a plain string
literal, a node reference read from an upstream output bag, and the rejected
dotless `$` string. -/
theorem reference_classification_witness :
    resolve_reference (.int 3) [] [] = .int 3
    ∧ resolve_reference (.str "plain") [] [] = .str "plain"
    ∧ resolve_reference (.str "$add.result") []
        [("add", .dict (.cons "result" (.int 6) .nil))] = .int 6
    ∧ checkInput [] regEcho "n" "k" (.str "$foo") = .error (.invalidRefFormat "n" "$foo") := by
  have h := reference_classification
  refine ⟨h.1 (.int 3) [] [] (fun s hs => nomatch hs),
    h.2.2.1 "plain" [] [] (by decide), ?_,
    h.2.2.2.2.2.2.2 [] regEcho "n" "k" "$foo" "foo".data (by decide) (by decide) (by decide)⟩
  have h6 := h.2.2.2.2.2.1 "$add.result" "add.result".data "add".data "result".data []
    [("add", .dict (.cons "result" (.int 6) .nil))] (by decide) (by decide) (by decide)
  exact h6.trans rfl

/-- Counterexample to C8 as stated: the string `"$foo"` carries the `$` sigil
but matches neither reference form; the resolver passes it through as a
literal, yet the graph wiring it does not validate: `validate_graph` rejects
it with an invalid-reference-format failure. -/
theorem dollar_no_dot_counterexample :
    resolve_reference (.str "$foo") [] [] = .str "$foo"
    ∧ validate_graph gDollarNoDot regEcho = .error (.invalidRefFormat "n" "$foo") :=
  ⟨rfl, rfl⟩

/-! ## Kahn's algorithm: claims C2 and C10 -/

theorem pd_ind (ds : List String) (hnd : ds.Nodup) :
    ∀ (queue : List String) (ind : String → Int) (m : String),
      (processDependents ds queue ind).2 m = if m ∈ ds then ind m - 1 else ind m := by
  induction ds with
  | nil => intro queue ind m; simp [processDependents]
  | cons d ds ih =>
      intro queue ind m
      rw [List.nodup_cons] at hnd
      rw [processDependents]
      rw [ih hnd.2]
      by_cases hm : m = d
      · subst hm
        rw [if_neg hnd.1, if_pos (List.mem_cons_self m ds), if_pos rfl]
      · rw [if_neg hm]
        by_cases hm2 : m ∈ ds
        · rw [if_pos hm2, if_pos (List.mem_cons_of_mem d hm2)]
        · rw [if_neg hm2, if_neg (by simp [hm, hm2])]

theorem pd_queue (ds : List String) (hnd : ds.Nodup) :
    ∀ (queue : List String) (ind : String → Int),
      (processDependents ds queue ind).1
        = queue ++ ds.filter (fun d => decide (ind d = 1)) := by
  induction ds with
  | nil => intro queue ind; simp [processDependents]
  | cons d ds ih =>
      intro queue ind
      rw [List.nodup_cons] at hnd
      rw [processDependents]
      rw [ih hnd.2]
      have hfil : ds.filter (fun x => decide ((fun m => if m = d then ind m - 1 else ind m) x = 1))
          = ds.filter (fun x => decide (ind x = 1)) := by
        apply List.filter_congr
        intro x hx
        have hxd : x ≠ d := by rintro rfl; exact hnd.1 hx
        simp [hxd]
      rw [hfil]
      by_cases h1 : ind d - 1 = 0
      · rw [if_pos (by simp [h1])]
        have : ind d = 1 := by omega
        simp [List.filter_cons, this, List.append_assoc]
      · rw [if_neg (by simp [h1])]
        have : ¬ (ind d = 1) := by omega
        simp [List.filter_cons, this]





theorem degSum_decAll (rev : List String) (ind : String → Int) (hge : ∀ d ∈ rev, 1 ≤ ind d) :
    ∀ (keys : List String),
      degSum keys (fun m => if m ∈ rev then ind m - 1 else ind m)
        + keys.countP (fun k => decide (k ∈ rev))
        = degSum keys ind := by
  intro keys
  induction keys with
  | nil => simp [degSum]
  | cons k ks ih =>
      simp only [degSum, List.map_cons, List.sum_cons, List.countP_cons] at ih ⊢
      by_cases hk : k ∈ rev
      · have h1 : 1 ≤ ind k := hge k hk
        have h2 : (ind k - 1).toNat + 1 = (ind k).toNat := by omega
        simp only [if_pos hk, hk]
        simp only [decide_eq_true_eq, if_pos trivial]
        omega
      · simp only [if_neg hk, hk]
        simp only [decide_eq_true_eq, if_neg (fun h => h)]
        omega

theorem countP_mem_eq_length (keys rev : List String) (hk : keys.Nodup) (hr : rev.Nodup)
    (hsub : ∀ d ∈ rev, d ∈ keys) :
    keys.countP (fun k => decide (k ∈ rev)) = rev.length := by
  rw [List.countP_eq_length_filter]
  have hperm : (keys.filter (fun k => decide (k ∈ rev))).Perm rev := by
    apply List.Subperm.antisymm
    · exact List.subperm_of_subset (List.Nodup.filter _ hk)
        (fun x hx => by simpa using (List.mem_filter.mp hx).2)
    · exact List.subperm_of_subset hr
        (fun x hx => List.mem_filter.mpr ⟨hsub x hx, by simpa using hx⟩)
  exact hperm.length_eq

theorem kmeasure_step (keys rev queue : List String) (ind : String → Int)
    (hk : keys.Nodup) (hr : rev.Nodup) (hsub : ∀ d ∈ rev, d ∈ keys)
    (hge : ∀ d ∈ rev, 1 ≤ ind d) :
    kmeasure keys (processDependents rev queue ind).1 (processDependents rev queue ind).2
      ≤ queue.length + degSum keys ind := by
  have hq := pd_queue rev hr queue ind
  have hdeg : degSum keys (processDependents rev queue ind).2
      = degSum keys (fun m => if m ∈ rev then ind m - 1 else ind m) := by
    unfold degSum
    congr 1
    apply List.map_congr_left
    intro n _
    rw [pd_ind rev hr queue ind n]
  have hsum := degSum_decAll rev ind hge keys
  have hcnt := countP_mem_eq_length keys rev hk hr hsub
  have hfil : (rev.filter (fun d => decide (ind d = 1))).length ≤ rev.length :=
    List.length_filter_le _ _
  unfold kmeasure
  rw [hq, hdeg, List.length_append]
  omega





theorem countP_result_snoc (keys result : List String) (node : String) (l : List String)
    (hl : l.Nodup) (hkn : node ∈ keys) (hnr : node ∉ result) :
    l.countP (fun d => decide (d ∈ keys ∧ d ∈ result ++ [node]))
      = l.countP (fun d => decide (d ∈ keys ∧ d ∈ result)) + (if node ∈ l then 1 else 0) := by
  induction l with
  | nil => simp
  | cons x xs ih =>
      rw [List.nodup_cons] at hl
      simp only [List.countP_cons]
      rw [ih hl.2]
      by_cases hx : x = node
      · subst hx
        have hp1 : (decide (x ∈ keys ∧ x ∈ result ++ [x])) = true := by simp [hkn]
        have hp2 : (decide (x ∈ keys ∧ x ∈ result)) = false := by simp [hnr]
        rw [hp1, hp2, if_pos (List.mem_cons_self _ _), if_neg hl.1]
        simp
      · have hp : (decide (x ∈ keys ∧ x ∈ result ++ [node]))
            = (decide (x ∈ keys ∧ x ∈ result)) := by
          simp [hx]
        rw [hp]
        have hm : (node ∈ x :: xs) ↔ (node ∈ xs) := by
          constructor
          · intro h; rcases List.mem_cons.mp h with h | h
            · exact absurd h.symm hx
            · exact h
          · exact List.mem_cons_of_mem _
        by_cases hnx : node ∈ xs
        · rw [if_pos hnx, if_pos (hm.mpr hnx)]
          omega
        · rw [if_neg hnx, if_neg (fun h => hnx (hm.mp h))]
          omega

theorem kahn_step_facts (keys : List String) (depsF : String → List String)
    (hkeys : keys.Nodup) (node : String) (queue : List String) (ind : String → Int)
    (result : List String)
    (hinv : KahnInv keys depsF (node :: queue) ind result) :
    (dependentsOf keys depsF node).Nodup
    ∧ (∀ d ∈ dependentsOf keys depsF node, d ∈ keys)
    ∧ (∀ d ∈ dependentsOf keys depsF node, node ∈ depsF d)
    ∧ node ∈ keys
    ∧ node ∉ result
    ∧ (∀ d ∈ dependentsOf keys depsF node, 1 ≤ ind d)
    ∧ node ∉ dependentsOf keys depsF node := by
  obtain ⟨h1, h2, h3, h4, h5⟩ := hinv
  have hrevnd : (dependentsOf keys depsF node).Nodup := List.Nodup.filter _ hkeys
  have hrevsub : ∀ d ∈ dependentsOf keys depsF node, d ∈ keys :=
    fun d hd => (List.mem_filter.mp hd).1
  have hrevdep : ∀ d ∈ dependentsOf keys depsF node, node ∈ depsF d :=
    fun d hd => by simpa using (List.mem_filter.mp hd).2
  have hnodek : node ∈ keys := h2 node (by simp)
  have hnodenr : node ∉ result := by
    intro hmem
    rw [List.nodup_append] at h1
    exact h1.2.2 hmem (by simp)
  have hge : ∀ d ∈ dependentsOf keys depsF node, 1 ≤ ind d := by
    intro d hd
    have hdk := hrevsub d hd
    have hcount := h3 d hdk
    have hlt : (depsF d).countP (fun x => decide (x ∈ keys ∧ x ∈ result))
        < (depsF d).length := by
      apply lt_of_le_of_ne (List.countP_le_length _)
      intro heq
      have hnode := List.countP_eq_length.mp heq node (hrevdep d hd)
      rw [decide_eq_true_eq] at hnode
      exact hnodenr hnode.2
    omega
  have hnotself : node ∉ dependentsOf keys depsF node := by
    intro hmem
    have := hge node hmem
    have h0 : ind node = 0 := (h4 node hnodek).mpr (by simp)
    omega
  exact ⟨hrevnd, hrevsub, hrevdep, hnodek, hnodenr, hge, hnotself⟩





theorem kahn_step (keys : List String) (depsF : String → List String)
    (hkeys : keys.Nodup) (hdeps : ∀ n, (depsF n).Nodup)
    (node : String) (queue : List String) (ind : String → Int) (result : List String)
    (hinv : KahnInv keys depsF (node :: queue) ind result) :
    KahnInv keys depsF
      (processDependents (dependentsOf keys depsF node) queue ind).1
      (processDependents (dependentsOf keys depsF node) queue ind).2
      (result ++ [node]) := by
  obtain ⟨hrevnd, hrevsub, hrevdep, hnodek, hnodenr, hge, hnotself⟩ :=
    kahn_step_facts keys depsF hkeys node queue ind result hinv
  obtain ⟨h1, h2, h3, h4, h5⟩ := hinv
  have hq := pd_queue (dependentsOf keys depsF node) hrevnd queue ind
  have hi := pd_ind (dependentsOf keys depsF node) hrevnd queue ind
  have hrevmem : ∀ n, n ∈ dependentsOf keys depsF node ↔ (n ∈ keys ∧ node ∈ depsF n) := by
    intro n; unfold dependentsOf; simp [List.mem_filter]
  have hfiltsub : ∀ d ∈ (dependentsOf keys depsF node).filter (fun d => decide (ind d = 1)),
      d ∈ dependentsOf keys depsF node := fun d hd => (List.mem_filter.mp hd).1
  have hfilt1 : ∀ d ∈ (dependentsOf keys depsF node).filter (fun d => decide (ind d = 1)),
      ind d = 1 := fun d hd => by simpa using (List.mem_filter.mp hd).2
  have hT : (result ++ [node]) ++ (queue
        ++ (dependentsOf keys depsF node).filter (fun d => decide (ind d = 1)))
      = (result ++ node :: queue)
        ++ (dependentsOf keys depsF node).filter (fun d => decide (ind d = 1)) := by
    simp [List.append_assoc]
  have hfiltnew : ∀ d ∈ (dependentsOf keys depsF node).filter (fun d => decide (ind d = 1)),
      d ∉ result ++ node :: queue := by
    intro d hd hmem
    have h0 := (h4 d (hrevsub d (hfiltsub d hd))).mpr hmem
    have := hfilt1 d hd
    omega
  refine ⟨?_, ?_, ?_, ?_, ?_⟩
  · rw [hq, hT]
    rw [List.nodup_append]
    exact ⟨h1, List.Nodup.filter _ hrevnd, fun a ha hafilt => hfiltnew a hafilt ha⟩
  · rw [hq, hT]
    intro n hn
    rcases List.mem_append.mp hn with hn | hn
    · exact h2 n hn
    · exact hrevsub n (hfiltsub n hn)
  · intro n hnk
    rw [hi n]
    have hsnoc := countP_result_snoc keys result node (depsF n) (hdeps n) hnodek hnodenr
    have hold := h3 n hnk
    by_cases hr : n ∈ dependentsOf keys depsF node
    · have hdep : node ∈ depsF n := ((hrevmem n).mp hr).2
      rw [if_pos hr, hsnoc, if_pos hdep]
      omega
    · have hdep : node ∉ depsF n := fun hc => hr ((hrevmem n).mpr ⟨hnk, hc⟩)
      rw [if_neg hr, hsnoc, if_neg hdep]
      omega
  · intro n hnk
    rw [hi n, hq, hT]
    have hmemsplit : n ∈ (result ++ node :: queue)
          ++ (dependentsOf keys depsF node).filter (fun d => decide (ind d = 1))
        ↔ (n ∈ result ++ node :: queue
            ∨ n ∈ (dependentsOf keys depsF node).filter (fun d => decide (ind d = 1))) :=
      List.mem_append
    by_cases hr : n ∈ dependentsOf keys depsF node
    · have hge1 := hge n hr
      rw [if_pos hr]
      by_cases h1eq : ind n = 1
      · have hmem : n ∈ (dependentsOf keys depsF node).filter (fun d => decide (ind d = 1)) :=
          List.mem_filter.mpr ⟨hr, by simp [h1eq]⟩
        constructor
        · intro _; exact hmemsplit.mpr (Or.inr hmem)
        · intro _; omega
      · constructor
        · intro h0; omega
        · intro hmem
          rcases hmemsplit.mp hmem with hmem | hmem
          · have := (h4 n hnk).mpr hmem; omega
          · exact absurd (hfilt1 n hmem) h1eq
    · rw [if_neg hr]
      have hnfilt : n ∉ (dependentsOf keys depsF node).filter (fun d => decide (ind d = 1)) :=
        fun hc => hr (hfiltsub n hc)
      constructor
      · intro h0
        exact hmemsplit.mpr (Or.inl ((h4 n hnk).mp h0))
      · intro hmem
        rcases hmemsplit.mp hmem with hmem | hmem
        · exact (h4 n hnk).mpr hmem
        · exact absurd hmem hnfilt
  · intro j hj d hd
    by_cases hlt : j < result.length
    · rw [List.get_append j hlt] at hd
      rw [List.take_append_of_le_length (le_of_lt hlt)]
      exact h5 j hlt d hd
    · have hjlen : j < result.length + 1 := by
        have h' := hj
        simp only [List.length_append, List.length_cons, List.length_nil] at h'
        omega
      have hjeq : j = result.length := by omega
      subst hjeq
      have hnode : (result ++ [node]).get ⟨result.length, hj⟩ = node := by
        simp [List.get_eq_getElem]
      rw [hnode] at hd
      have h0 : ind node = 0 := (h4 node hnodek).mpr (by simp)
      have hcnt := h3 node hnodek
      have hall : ∀ x ∈ depsF node, (decide (x ∈ keys ∧ x ∈ result)) = true := by
        apply List.countP_eq_length.mp
        omega
      have := hall d hd
      rw [decide_eq_true_eq] at this
      rw [List.take_append_of_le_length (le_refl _), List.take_length]
      exact this.2





theorem alookup_mem {α : Type} (l : List (String × α)) (key : String) (v : α)
    (h : alookup l key = some v) : (key, v) ∈ l := by
  induction l with
  | nil => simp [alookup] at h
  | cons p rest ih =>
      obtain ⟨k1, v1⟩ := p
      rw [alookup] at h
      by_cases hk : k1 = key
      · rw [if_pos hk] at h
        injection h with h
        rw [← hk, ← h]
        exact List.mem_cons_self _ _
      · rw [if_neg hk] at h
        exact List.mem_cons_of_mem _ (ih h)

theorem alookup_eq_of_mem_nodup {α : Type} (l : List (String × α)) (k : String) (v : α)
    (hnd : (l.map Prod.fst).Nodup) (hmem : (k, v) ∈ l) : alookup l k = some v := by
  induction l with
  | nil => simp at hmem
  | cons p rest ih =>
      rw [List.map_cons, List.nodup_cons] at hnd
      rcases List.mem_cons.mp hmem with heq | hmem'
      · rw [← heq, alookup, if_pos rfl]
      · rw [alookup]
        have hk : p.1 ≠ k := by
          intro hc
          exact hnd.1 (hc ▸ List.mem_map_of_mem Prod.fst hmem')
        rw [if_neg hk]
        exact ih hnd.2 hmem'

theorem kahn_final (keys : List String) (depsF : String → List String)
    (ind : String → Int) (result : List String)
    (hinv : KahnInv keys depsF [] ind result) :
    KahnPost keys depsF result := by
  obtain ⟨h1, h2, h3, h4, h5⟩ := hinv
  refine ⟨by simpa using h1, fun n hn => h2 n (by simpa using hn), ?_, h5⟩
  intro n hnk
  constructor
  · intro hmem d hd
    have h0 : ind n = 0 := (h4 n hnk).mpr (by simpa using hmem)
    have hcnt := h3 n hnk
    have hlen : (depsF n).countP (fun d => decide (d ∈ keys ∧ d ∈ result))
        = (depsF n).length := by omega
    have hall := List.countP_eq_length.mp hlen d hd
    rwa [decide_eq_true_eq] at hall
  · intro hall
    have hcnt := h3 n hnk
    have hlen : (depsF n).countP (fun d => decide (d ∈ keys ∧ d ∈ result))
        = (depsF n).length :=
      List.countP_eq_length.mpr (fun d hd => by simp [hall d hd])
    have h0 : ind n = 0 := by omega
    simpa using (h4 n hnk).mp h0

theorem kahnLoop_post (keys : List String) (depsF : String → List String)
    (hkeys : keys.Nodup) (hdeps : ∀ n, (depsF n).Nodup) :
    ∀ (fuel : Nat) (queue : List String) (ind : String → Int) (result : List String),
      kmeasure keys queue ind ≤ fuel →
      KahnInv keys depsF queue ind result →
      KahnPost keys depsF (kahnLoop keys depsF fuel queue ind result) := by
  intro fuel
  induction fuel with
  | zero =>
      intro queue ind result hm hinv
      have hq : queue = [] := by
        unfold kmeasure at hm
        cases queue with
        | nil => rfl
        | cons a as => simp at hm
      subst hq
      rw [kahnLoop]
      exact kahn_final keys depsF ind result hinv
  | succ fuel ih =>
      intro queue ind result hm hinv
      cases queue with
      | nil =>
          rw [kahnLoop]
          exact kahn_final keys depsF ind result hinv
      | cons node queue =>
          rw [kahnLoop]
          have hstep := kahn_step keys depsF hkeys hdeps node queue ind result hinv
          have hfacts := kahn_step_facts keys depsF hkeys node queue ind result hinv
          have hmeas := kmeasure_step keys (dependentsOf keys depsF node) queue ind hkeys
            hfacts.1 hfacts.2.1 hfacts.2.2.2.2.2.1
          apply ih
          · unfold kmeasure at hm ⊢
            simp only [List.length_cons] at hm
            unfold kmeasure at hmeas
            omega
          · exact hstep

theorem degSum_init (deps : DepGraph) (hk : (deps.map Prod.fst).Nodup) :
    degSum (deps.map Prod.fst) (fun n => ((depsOfFn deps n).length : Int))
      = (deps.map (fun p => p.2.length)).sum := by
  induction deps with
  | nil => simp [degSum]
  | cons p rest ih =>
      obtain ⟨k1, ds1⟩ := p
      rw [List.map_cons, List.nodup_cons] at hk
      simp only [degSum, List.map_cons, List.sum_cons]
      have hhead : depsOfFn ((k1, ds1) :: rest) k1 = ds1 := by
        unfold depsOfFn
        rw [alookup, if_pos rfl]
        rfl
      have htail : ∀ n ∈ rest.map Prod.fst,
          depsOfFn ((k1, ds1) :: rest) n = depsOfFn rest n := by
        intro n hn
        have hne : k1 ≠ n := fun hc => hk.1 (hc ▸ hn)
        unfold depsOfFn
        rw [alookup, if_neg hne]
      have hmap : (rest.map Prod.fst).map
            (fun n => (((depsOfFn ((k1, ds1) :: rest) n).length : Int)).toNat)
          = (rest.map Prod.fst).map
            (fun n => (((depsOfFn rest n).length : Int)).toNat) := by
        apply List.map_congr_left
        intro n hn
        rw [htail n hn]
      rw [hhead, hmap]
      have ihr := ih hk.2
      simp only [degSum] at ihr
      simp only [Int.toNat_natCast] at ihr ⊢
      rw [ihr]

theorem kahn_initial (deps : DepGraph) (hk : (deps.map Prod.fst).Nodup) :
    KahnInv (deps.map Prod.fst) (depsOfFn deps)
      ((deps.map Prod.fst).filter (fun n => decide ((depsOfFn deps n).length = 0)))
      (fun n => ((depsOfFn deps n).length : Int)) [] := by
  refine ⟨?_, ?_, ?_, ?_, ?_⟩
  · simpa using List.Nodup.filter _ hk
  · intro n hn
    rw [List.nil_append] at hn
    exact (List.mem_filter.mp hn).1
  · intro n _
    have hz : (depsOfFn deps n).countP
        (fun d => decide (d ∈ deps.map Prod.fst ∧ d ∈ ([] : List String))) = 0 :=
      List.countP_eq_zero.mpr (fun d _ => by simp)
    rw [hz]
    simp
  · intro n hnk
    rw [List.nil_append]
    constructor
    · intro h0
      have h0' : ((depsOfFn deps n).length : Int) = 0 := h0
      refine List.mem_filter.mpr ⟨hnk, ?_⟩
      simp only [decide_eq_true_eq]
      omega
    · intro hmem
      have hz := (List.mem_filter.mp hmem).2
      simp only [decide_eq_true_eq] at hz
      show ((depsOfFn deps n).length : Int) = 0
      omega
  · intro j hj
    simp at hj

theorem topological_sort_post (deps : DepGraph) (hk : (deps.map Prod.fst).Nodup)
    (hd : ∀ p ∈ deps, p.2.Nodup) :
    KahnPost (deps.map Prod.fst) (depsOfFn deps) (topological_sort deps) := by
  have hdeps : ∀ n, (depsOfFn deps n).Nodup := by
    intro n
    unfold depsOfFn
    cases halo : alookup deps n with
    | none => simp
    | some v => simpa using hd _ (alookup_mem deps n v halo)
  have hmeas : kmeasure (deps.map Prod.fst)
      ((deps.map Prod.fst).filter (fun n => decide ((depsOfFn deps n).length = 0)))
      (fun n => ((depsOfFn deps n).length : Int))
      ≤ (deps.map Prod.fst).length + (deps.map (fun p => p.2.length)).sum := by
    unfold kmeasure
    have h1 : ((deps.map Prod.fst).filter
          (fun n => decide ((depsOfFn deps n).length = 0))).length
        ≤ (deps.map Prod.fst).length := List.length_filter_le _ _
    have h2 := degSum_init deps hk
    omega
  exact kahnLoop_post (deps.map Prod.fst) (depsOfFn deps) hk hdeps _ _ _ []
    hmeas (kahn_initial deps hk)





theorem closedFn_of_closed (deps : DepGraph)
    (hclosed : ∀ p ∈ deps, ∀ d ∈ p.2, d ∈ deps.map Prod.fst) :
    ∀ n d, d ∈ depsOfFn deps n → d ∈ deps.map Prod.fst := by
  intro n d hd
  unfold depsOfFn at hd
  cases halo : alookup deps n with
  | none => rw [halo] at hd; simp at hd
  | some v =>
      rw [halo] at hd
      exact hclosed _ (alookup_mem deps n v halo) d hd

theorem cycle_members_not_in_sort (deps : DepGraph)
    (hk : (deps.map Prod.fst).Nodup) (hd : ∀ p ∈ deps, p.2.Nodup)
    (c : List String) (hcyc : IsCycle deps c) :
    ∀ x ∈ c, x ∉ topological_sort deps := by
  classical
  obtain ⟨hnd, hsub, hiff, hord⟩ := topological_sort_post deps hk hd
  by_contra hcon
  push_neg at hcon
  obtain ⟨x, hxc, hxR⟩ := hcon
  obtain ⟨hcne, hstep⟩ := hcyc
  have hex : ∃ j, ∃ (hj : j < (topological_sort deps).length),
      (topological_sort deps).get ⟨j, hj⟩ ∈ c := by
    obtain ⟨⟨j, hj⟩, hget⟩ := List.get_of_mem hxR
    exact ⟨j, hj, hget ▸ hxc⟩
  haveI : DecidablePred (fun j => ∃ (hj : j < (topological_sort deps).length),
      (topological_sort deps).get ⟨j, hj⟩ ∈ c) := fun _ => Classical.dec _
  obtain ⟨hj, hjc⟩ := Nat.find_spec hex
  set j := Nat.find hex with hjdef
  set x' := (topological_sort deps).get ⟨j, hj⟩ with hx'def
  obtain ⟨⟨i, hi⟩, hic⟩ := List.get_of_mem hjc
  have hgetD : c.getD i "" = x' := by
    rw [List.getD_eq_get c "" hi, hic]
  have hdep : c.getD ((i + 1) % c.length) "" ∈ depsOfFn deps x' := by
    have := hstep i hi
    rwa [hgetD] at this
  have hnext_mem : c.getD ((i + 1) % c.length) "" ∈ c := by
    have hlt : (i + 1) % c.length < c.length :=
      Nat.mod_lt _ (List.length_pos.mpr hcne)
    rw [List.getD_eq_get c "" hlt]
    exact List.get_mem _ _ _
  have htake := hord j hj _ hdep
  obtain ⟨⟨i', hi'⟩, hget'⟩ := List.get_of_mem htake
  have hi'j : i' < j := by
    have := hi'
    rw [List.length_take] at this
    omega
  have hi'len : i' < (topological_sort deps).length := by
    have := hi'
    rw [List.length_take] at this
    omega
  have hgetR : (topological_sort deps).get ⟨i', hi'len⟩ = c.getD ((i + 1) % c.length) "" := by
    rw [← hget']
    exact List.get_take _ hi'len hi'j
  have : i' ∈ {t | ∃ (ht : t < (topological_sort deps).length),
      (topological_sort deps).get ⟨t, ht⟩ ∈ c} := ⟨hi'len, hgetR ▸ hnext_mem⟩
  exact absurd (Nat.find_le this) (by omega)

/-- C10: `topological_sort` is a total function: on every dependency map,
including cyclic ones, the fuelled loop provably drains its queue and returns
a list without any error path.  When the map contains a cycle, every node on
a cycle -- and every node transitively depending on one -- is silently absent
from the returned order rather than reported. -/
theorem topological_sort_total_omits_cycle_nodes (deps : DepGraph)
    (hk : (deps.map Prod.fst).Nodup) (hd : ∀ p ∈ deps, p.2.Nodup)
    (n : String) (hreach : ReachesCycle deps n) :
    n ∉ topological_sort deps := by
  obtain ⟨c, m, hcyc, hmc, hr⟩ := hreach
  obtain ⟨hnd, hsub, hiff, hord⟩ := topological_sort_post deps hk hd
  have hcmem := cycle_members_not_in_sort deps hk hd c hcyc
  induction hr using Relation.ReflTransGen.head_induction_on with
  | refl => exact hcmem m hmc
  | @head x b hdep hrest ih =>
      intro hxR
      have hxk : x ∈ deps.map Prod.fst := hsub x hxR
      have hall := (hiff x hxk).mp hxR
      exact ih ((hall _ hdep).2)





theorem keys_subset_sort (deps : DepGraph)
    (hk : (deps.map Prod.fst).Nodup) (hd : ∀ p ∈ deps, p.2.Nodup)
    (hclosed : ∀ p ∈ deps, ∀ d ∈ p.2, d ∈ deps.map Prod.fst)
    (hacyclic : ¬ ∃ c, IsCycle deps c) :
    ∀ n ∈ deps.map Prod.fst, n ∈ topological_sort deps := by
  classical
  obtain ⟨hnd, hsub, hiff, hord⟩ := topological_sort_post deps hk hd
  have hclF := closedFn_of_closed deps hclosed
  by_contra hc
  push_neg at hc
  obtain ⟨n₀, hn₀k, hn₀R⟩ := hc
  have hstep : ∀ n, ∃ d, (n ∈ deps.map Prod.fst ∧ n ∉ topological_sort deps) →
      (d ∈ depsOfFn deps n ∧ d ∈ deps.map Prod.fst ∧ d ∉ topological_sort deps) := by
    intro n
    by_cases h : n ∈ deps.map Prod.fst ∧ n ∉ topological_sort deps
    · have hnall : ¬ ∀ d ∈ depsOfFn deps n, d ∈ deps.map Prod.fst ∧ d ∈ topological_sort deps :=
        fun hall => h.2 ((hiff n h.1).mpr hall)
      push_neg at hnall
      obtain ⟨d, hdmem, hdbad⟩ := hnall
      refine ⟨d, fun _ => ⟨hdmem, hclF n d hdmem, hdbad (hclF n d hdmem)⟩⟩
    · exact ⟨"", fun hcon => absurd hcon h⟩
  choose f hf using hstep
  have hginv : ∀ t, f^[t] n₀ ∈ deps.map Prod.fst ∧ f^[t] n₀ ∉ topological_sort deps := by
    intro t
    induction t with
    | zero => exact ⟨hn₀k, hn₀R⟩
    | succ t iht =>
        rw [Function.iterate_succ_apply']
        have := hf _ iht
        exact ⟨this.2.1, this.2.2⟩
  have hgedge : ∀ t, f^[t+1] n₀ ∈ depsOfFn deps (f^[t] n₀) := by
    intro t
    rw [Function.iterate_succ_apply']
    exact (hf _ (hginv t)).1
  have hmaps : ∀ t ∈ Finset.range ((deps.map Prod.fst).length + 1),
      f^[t] n₀ ∈ (deps.map Prod.fst).toFinset := by
    intro t _
    rw [List.mem_toFinset]
    exact (hginv t).1
  have hcard : (deps.map Prod.fst).toFinset.card
      < (Finset.range ((deps.map Prod.fst).length + 1)).card := by
    rw [Finset.card_range]
    exact Nat.lt_succ_of_le (List.toFinset_card_le _)
  obtain ⟨a0, _, b0, _, hab0, heq0⟩ :=
    Finset.exists_ne_map_eq_of_card_lt_of_maps_to hcard hmaps
  obtain ⟨a, b, hab, heqg⟩ : ∃ a b, a < b ∧ f^[a] n₀ = f^[b] n₀ := by
    rcases lt_trichotomy a0 b0 with h | h | h
    · exact ⟨a0, b0, h, heq0⟩
    · exact absurd h hab0
    · exact ⟨b0, a0, h, heq0.symm⟩
  apply hacyclic
  refine ⟨(List.range (b - a)).map (fun t => f^[a + t] n₀), ?_, ?_⟩
  · simp
    omega
  · intro i hi
    rw [List.length_map, List.length_range] at hi
    have hgetc : ∀ t, t < b - a →
        ((List.range (b - a)).map (fun t => f^[a + t] n₀)).getD t "" = f^[a + t] n₀ := by
      intro t ht
      have hlt : t < ((List.range (b - a)).map (fun t => f^[a + t] n₀)).length := by
        rw [List.length_map, List.length_range]; exact ht
      rw [List.getD_eq_get _ "" hlt]
      simp
    rw [List.length_map, List.length_range]
    by_cases hnext : i + 1 < b - a
    · rw [hgetc i hi, Nat.mod_eq_of_lt hnext, hgetc (i + 1) hnext]
      have := hgedge (a + i)
      have harith : a + (i + 1) = a + i + 1 := by omega
      rwa [harith]
    · have hieq : i + 1 = b - a := by omega
      rw [hgetc i hi, hieq, Nat.mod_self, hgetc 0 (by omega)]
      have := hgedge (a + i)
      have harith : a + i + 1 = b := by omega
      rw [harith] at this
      have h0 : a + 0 = a := by omega
      rw [h0, heqg]
      exact this





/-- C2: for every acyclic dependency graph (a dictionary from node names to
duplicate-free dependency sets in which every dependency names a node of the
graph), `topological_sort` returns every node exactly once (a permutation of
the keys), and for every dependency edge -- node `p.1` depending on `d` --
`d` appears strictly before `p.1` in the returned sequence. -/
theorem topological_sort_correct (deps : DepGraph)
    (hk : (deps.map Prod.fst).Nodup)
    (hd : ∀ p ∈ deps, p.2.Nodup)
    (hclosed : ∀ p ∈ deps, ∀ d ∈ p.2, d ∈ deps.map Prod.fst)
    (hacyclic : ¬ ∃ c, IsCycle deps c) :
    (topological_sort deps).Perm (deps.map Prod.fst)
    ∧ ∀ p ∈ deps, ∀ d ∈ p.2, ∃ i j, ∃ (hi : i < (topological_sort deps).length)
        (hj : j < (topological_sort deps).length), i < j
        ∧ (topological_sort deps).get ⟨i, hi⟩ = d
        ∧ (topological_sort deps).get ⟨j, hj⟩ = p.1 := by
  obtain ⟨hnd, hsub, hiff, hord⟩ := topological_sort_post deps hk hd
  have hksub := keys_subset_sort deps hk hd hclosed hacyclic
  constructor
  · exact List.Subperm.antisymm
      (List.subperm_of_subset hnd hsub)
      (List.subperm_of_subset hk hksub)
  · intro p hp d hdp
    have hp1k : p.1 ∈ deps.map Prod.fst := List.mem_map_of_mem Prod.fst hp
    have hp1R : p.1 ∈ topological_sort deps := hksub p.1 hp1k
    obtain ⟨⟨j, hj⟩, hgetj⟩ := List.get_of_mem hp1R
    have hdof : depsOfFn deps p.1 = p.2 := by
      unfold depsOfFn
      rw [alookup_eq_of_mem_nodup deps p.1 p.2 hk hp]
      rfl
    have hdin : d ∈ depsOfFn deps ((topological_sort deps).get ⟨j, hj⟩) := by
      rw [hgetj, hdof]
      exact hdp
    have htake := hord j hj d hdin
    obtain ⟨⟨i, hi'⟩, hgeti⟩ := List.get_of_mem htake
    have hij : i < j := by
      have := hi'
      rw [List.length_take] at this
      omega
    have hilen : i < (topological_sort deps).length := by
      have := hi'
      rw [List.length_take] at this
      omega
    refine ⟨i, j, hilen, hj, hij, ?_, hgetj⟩
    rw [← hgeti]
    exact List.get_take _ hilen hij

/-- Witness for C10 on `depsCyc`: node `c` transitively depends on the cycle
`a -> b -> a` and is absent from the computed order (which is `[\"d\"]`). -/
theorem topological_sort_total_omits_cycle_nodes_witness :
    (depsCyc.map Prod.fst).Nodup
    ∧ ReachesCycle depsCyc "c"
    ∧ "c" ∉ topological_sort depsCyc := by
  have hcyc : IsCycle depsCyc ["a", "b"] := ⟨by decide, by decide⟩
  have hreach : ReachesCycle depsCyc "c" :=
    ⟨["a", "b"], "a", hcyc, by decide,
      Relation.ReflTransGen.single (show "a" ∈ depsOfFn depsCyc "c" by decide)⟩
  exact ⟨by decide, hreach,
    topological_sort_total_omits_cycle_nodes depsCyc (by decide) (by decide) "c" hreach⟩

/-! ## DFS cycle detection: claims C3 and C4 -/

theorem colorRank_black_mono {c c' : Color} (h : colorRank c ≤ colorRank c')
    (hb : c = .black) : c' = .black := by
  subst hb
  cases c' <;> simp [colorRank] at h ⊢

theorem colorRank_white_back {c c' : Color} (h : colorRank c ≤ colorRank c')
    (hw : c' = .white) : c = .white := by
  subst hw
  cases c <;> simp [colorRank] at h ⊢

theorem whiteCount_mono (keys : List String) (c c' : String → Color)
    (h : ∀ m, colorRank (c m) ≤ colorRank (c' m)) :
    whiteCount keys c' ≤ whiteCount keys c := by
  apply List.countP_mono_left
  intro x _ hx
  rw [decide_eq_true_eq] at hx
  simp [colorRank_white_back (h x) hx]

theorem countP_succ_le_of_mem {α : Type} (l : List α) (p q : α → Bool)
    (hmono : ∀ x ∈ l, p x = true → q x = true)
    (x : α) (hx : x ∈ l) (hq : q x = true) (hp : p x = false) :
    l.countP p + 1 ≤ l.countP q := by
  induction l with
  | nil => simp at hx
  | cons a as ih =>
      rw [List.countP_cons, List.countP_cons]
      rcases List.mem_cons.mp hx with heq | hxs
      · subst heq
        rw [hp, hq]
        have hmono' : List.countP p as ≤ List.countP q as :=
          List.countP_mono_left (fun y hy => hmono y (List.mem_cons_of_mem _ hy))
        simp
        omega
      · have hrec := ih (fun y hy => hmono y (List.mem_cons_of_mem _ hy)) hxs
        have hhead : (if p a = true then 1 else 0) ≤ (if q a = true then 1 else 0) := by
          by_cases hpa : p a = true
          · rw [if_pos hpa, if_pos (hmono a (List.mem_cons_self _ _) hpa)]
          · rw [if_neg hpa]
            split <;> omega
        omega

theorem whiteCount_push (keys : List String) (color : String → Color) (node : String)
    (hk : node ∈ keys) (hw : color node = .white) :
    whiteCount keys (fun m => if m = node then Color.gray else color m) + 1
      ≤ whiteCount keys color := by
  unfold whiteCount
  refine countP_succ_le_of_mem keys _ _ ?_ node hk ?_ ?_
  · intro y _ hy
    by_cases hyn : y = node
    · exfalso
      simp [hyn] at hy
    · simpa [hyn] using hy
  · simp [hw]
  · simp





theorem cycle_rotate_closed (depsF : String → List String) (c : List String)
    (S : String → Prop)
    (hclosed : ∀ i < c.length, S (c.getD i "") → S (c.getD ((i + 1) % c.length) ""))
    (hlen : 0 < c.length)
    (i₀ : Nat) (hi₀ : i₀ < c.length) (hS : S (c.getD i₀ "")) :
    ∀ j < c.length, S (c.getD j "") := by
  have hstep : ∀ k, S (c.getD ((i₀ + k) % c.length) "") := by
    intro k
    induction k with
    | zero => simpa [Nat.mod_eq_of_lt hi₀] using hS
    | succ k ih =>
        have hidx : (i₀ + k) % c.length < c.length := Nat.mod_lt _ hlen
        have hc := hclosed _ hidx ih
        rw [Nat.mod_add_mod] at hc
        have harith : i₀ + (k + 1) = i₀ + k + 1 := by omega
        rwa [harith]
  intro j hj
  have := hstep (c.length + j - i₀)
  have harith : (i₀ + (c.length + j - i₀)) % c.length = j := by
    have h1 : i₀ + (c.length + j - i₀) = c.length + j := by omega
    rw [h1, Nat.add_mod_left, Nat.mod_eq_of_lt hj]
  rwa [harith] at this

theorem cycleF_mem_keys (keys : List String) (depsF : String → List String)
    (hdom : ∀ n, depsF n ≠ [] → n ∈ keys)
    (c : List String) (hcyc : IsCycleF depsF c) :
    ∀ x ∈ c, x ∈ keys := by
  intro x hx
  obtain ⟨⟨i, hi⟩, hget⟩ := List.get_of_mem hx
  have hd := hcyc.2 i hi
  rw [List.getD_eq_get c "" hi, hget] at hd
  apply hdom
  intro hnil
  rw [hnil] at hd
  simp at hd





theorem no_black_cycle_extend (keys : List String) (depsF : String → List String)
    (hdom : ∀ n, depsF n ≠ [] → n ∈ keys)
    (st : DfsState) (node : String)
    (hI4 : ∀ b, st.color b = .black → ∀ d ∈ depsF b, d ∈ keys → st.color d = .black)
    (hI5 : ¬ ∃ c, IsCycleF depsF c ∧ ∀ x ∈ c, st.color x = .black)
    (hgray : st.color node = .gray)
    (hdeps : ∀ d ∈ depsF node, d ∈ keys → st.color d = .black) :
    ¬ ∃ c, IsCycleF depsF c
      ∧ ∀ x ∈ c, (if x = node then Color.black else st.color x) = .black := by
  rintro ⟨c, hcyc, hblack⟩
  by_cases hnc : node ∈ c
  · -- the blackened node lies on the cycle: walking the cycle from its
    -- successor, every member was black already, including the gray node
    obtain ⟨⟨i, hi⟩, hgeti⟩ := List.get_of_mem hnc
    have hlen : 0 < c.length := List.length_pos.mpr hcyc.1
    have hmemk := cycleF_mem_keys keys depsF hdom c hcyc
    have hsucc : c.getD ((i + 1) % c.length) "" ∈ depsF node := by
      have := hcyc.2 i hi
      rwa [List.getD_eq_get c "" hi, hgeti] at this
    have hsucc_mem : c.getD ((i + 1) % c.length) "" ∈ c := by
      have hlt : (i + 1) % c.length < c.length := Nat.mod_lt _ hlen
      rw [List.getD_eq_get c "" hlt]
      exact List.get_mem _ _ _
    have hsucc_black : st.color (c.getD ((i + 1) % c.length) "") = .black :=
      hdeps _ hsucc (hmemk _ hsucc_mem)
    have hclosed : ∀ j < c.length, st.color (c.getD j "") = .black →
        st.color (c.getD ((j + 1) % c.length) "") = .black := by
      intro j hj hb
      have hd := hcyc.2 j hj
      have hmem : c.getD ((j + 1) % c.length) "" ∈ c := by
        have hlt : (j + 1) % c.length < c.length := Nat.mod_lt _ hlen
        rw [List.getD_eq_get c "" hlt]
        exact List.get_mem _ _ _
      exact hI4 _ hb _ hd (hmemk _ hmem)
    have hall := cycle_rotate_closed depsF c (fun x => st.color x = .black)
      hclosed hlen ((i + 1) % c.length) (Nat.mod_lt _ hlen) hsucc_black
    have hnode_black : st.color node = .black := by
      have := hall i hi
      rwa [List.getD_eq_get c "" hi, hgeti] at this
    rw [hgray] at hnode_black
    exact absurd hnode_black (by simp)
  · -- the cycle avoids the blackened node, so it was black already
    apply hI5
    refine ⟨c, hcyc, ?_⟩
    intro x hx
    have hb := hblack x hx
    have hxn : x ≠ node := by
      intro hxe
      exact hnc (hxe ▸ hx)
    rwa [if_neg hxn] at hb





theorem dfsInv_push (keys : List String) (depsF : String → List String)
    (st : DfsState) (node : String)
    (hInv : DfsInv keys depsF st) (hk : node ∈ keys) (hw : st.color node = .white)
    (hedge : ∀ x, st.path.getLast? = some x → node ∈ depsF x) :
    DfsInv keys depsF
      ⟨fun m => if m = node then Color.gray else st.color m, st.path ++ [node]⟩ := by
  obtain ⟨hI1, hI2, hI3, hI4, hI5, hI6⟩ := hInv
  have hnotpath : node ∉ st.path := fun hc => by
    have := (hI3 node).mpr hc
    rw [hw] at this
    exact absurd this (by simp)
  refine ⟨?_, ?_, ?_, ?_, ?_, ?_⟩ <;> dsimp only
  · rw [List.chain'_append]
    refine ⟨hI1, List.chain'_singleton _, ?_⟩
    intro x hx y hy
    simp only [List.head?_cons, Option.mem_def, Option.some.injEq] at hy
    subst hy
    exact hedge x hx
  · rw [List.nodup_append]
    refine ⟨hI2, List.nodup_singleton _, fun a ha hb => ?_⟩
    simp only [List.mem_singleton] at hb
    exact hnotpath (hb ▸ ha)
  · intro m
    by_cases hm : m = node
    · subst hm
      simp
    · rw [if_neg hm]
      rw [hI3 m]
      simp [hm]
  · intro m hm
    rcases List.mem_append.mp hm with hm | hm
    · exact hI4 m hm
    · simp at hm
      rw [hm]
      exact hk
  · intro b hb d hd hdk
    by_cases hbn : b = node
    · rw [if_pos hbn] at hb
      exact absurd hb (by simp)
    · rw [if_neg hbn] at hb
      have := hI5 b hb d hd hdk
      have hdn : d ≠ node := by
        intro hde
        rw [hde, hw] at this
        exact absurd this (by simp)
      rw [if_neg hdn]
      exact this
  · rintro ⟨c, hcyc, hblack⟩
    apply hI6
    refine ⟨c, hcyc, ?_⟩
    intro x hx
    have hb := hblack x hx
    by_cases hxn : x = node
    · rw [if_pos hxn] at hb
      exact absurd hb (by simp)
    · rwa [if_neg hxn] at hb

theorem dfsInv_pop (keys : List String) (depsF : String → List String)
    (hdom : ∀ n, depsF n ≠ [] → n ∈ keys)
    (st : DfsState) (node : String)
    (hInv : DfsInv keys depsF st)
    (hlast : st.path.getLast? = some node)
    (hblack : ∀ d ∈ depsF node, d ∈ keys → st.color d = .black) :
    DfsInv keys depsF
      ⟨fun m => if m = node then Color.black else st.color m, st.path.dropLast⟩ := by
  obtain ⟨hI1, hI2, hI3, hI4, hI5, hI6⟩ := hInv
  have hne : st.path ≠ [] := by
    intro hc
    rw [hc] at hlast
    simp at hlast
  have hdecomp : st.path.dropLast ++ [node] = st.path := by
    have h1 := List.dropLast_append_getLast hne
    have h2 : st.path.getLast hne = node := by
      have := List.getLast?_eq_getLast st.path hne
      rw [this] at hlast
      injection hlast
    rwa [h2] at h1
  have hgray : st.color node = .gray :=
    (hI3 node).mpr (by rw [← hdecomp]; simp)
  have hnotdrop : node ∉ st.path.dropLast := by
    intro hc
    have hnd : (st.path.dropLast ++ [node]).Nodup := by rw [hdecomp]; exact hI2
    rw [List.nodup_append] at hnd
    exact hnd.2.2 hc (by simp)
  refine ⟨?_, ?_, ?_, ?_, ?_, ?_⟩ <;> dsimp only
  · have := hI1
    rw [← hdecomp, List.chain'_append] at this
    exact this.1
  · exact List.Sublist.nodup (List.dropLast_sublist _) hI2
  · intro m
    by_cases hm : m = node
    · subst hm
      constructor
      · intro hc; exact absurd hc (by simp)
      · intro hc; exact absurd hc hnotdrop
    · rw [if_neg hm, hI3 m, ← hdecomp]
      simp [hm]
  · intro m hm
    exact hI4 m (by rw [← hdecomp]; exact List.mem_append_left _ hm)
  · intro b hb d hd hdk
    by_cases hbn : b = node
    · have hd' : d ∈ depsF node := hbn ▸ hd
      have hsd := hblack d hd' hdk
      by_cases hdn : d = node
      · rw [if_pos hdn]
      · rw [if_neg hdn]
        exact hsd
    · rw [if_neg hbn] at hb
      have hsd := hI5 b hb d hd hdk
      by_cases hdn : d = node
      · rw [if_pos hdn]
      · rw [if_neg hdn]
        exact hsd
  · exact no_black_cycle_extend keys depsF hdom st node hI5 hI6 hgray hblack





theorem head_dropWhile_mem (path : List String) (n : String) (hmem : n ∈ path) :
    (path.dropWhile (fun x => x != n)).head? = some n := by
  induction path with
  | nil => simp at hmem
  | cons a rest ih =>
      by_cases ha : a = n
      · subst ha
        rw [List.dropWhile_cons_of_neg (by simp)]
        rfl
      · rw [List.dropWhile_cons_of_pos (by simp [ha])]
        rcases List.mem_cons.mp hmem with heq | hmem'
        · exact absurd heq.symm ha
        · exact ih hmem'

theorem getD_last_of_getLast? {l : List String} {x : String} (h : l.getLast? = some x) :
    l.getD (l.length - 1) "" = x := by
  cases l with
  | nil => simp at h
  | cons a as =>
      have hne : (a :: as) ≠ [] := by simp
      rw [List.getLast?_eq_getLast _ hne] at h
      injection h with h
      rw [List.getD_eq_get _ "" (by simp)]
      rw [← h, List.getLast_eq_get]

theorem cycleFrom_report (depsF : String → List String) (path : List String) (node n : String)
    (hchain : List.Chain' (fun a b => b ∈ depsF a) path)
    (hmem : n ∈ path)
    (hlast : path.getLast? = some node)
    (hedge : n ∈ depsF node) :
    CycleReport depsF (cycleFrom path n) := by
  have hsfx : path.dropWhile (fun x => x != n) <:+ path := List.dropWhile_suffix _
  obtain ⟨pre, hpre⟩ := hsfx
  have hhead := head_dropWhile_mem path n hmem
  have hne : path.dropWhile (fun x => x != n) ≠ [] := by
    intro hc
    rw [hc] at hhead
    simp at hhead
  obtain ⟨hd, tl, hdec⟩ : ∃ hd tl, path.dropWhile (fun x => x != n) = hd :: tl := by
    cases hcase : path.dropWhile (fun x => x != n) with
    | nil => exact absurd hcase hne
    | cons a b => exact ⟨a, b, rfl⟩
  have hhd : hd = n := by
    rw [hdec] at hhead
    simpa using hhead
  subst hhd
  have hchain' : List.Chain' (fun a b => b ∈ depsF a) (hd :: tl) := by
    rw [← hdec]
    rw [← hpre] at hchain
    exact (List.chain'_append.mp hchain).2.1
  have hlast' : (hd :: tl).getLast? = some node := by
    rw [← hdec]
    rw [← hpre] at hlast
    rwa [List.getLast?_append_of_ne_nil _ hne] at hlast
  have hEq : cycleFrom path hd = hd :: tl ++ [hd] := by
    unfold cycleFrom
    rw [hdec]
  refine ⟨hd, tl, hEq, by simp, ?_⟩
  · -- the cyclic edge condition
    intro i hi
    rw [List.length_cons] at hi
    by_cases hilt : i + 1 < tl.length + 1
    · have hmod : (i + 1) % (hd :: tl).length = i + 1 := by
        rw [List.length_cons]
        exact Nat.mod_eq_of_lt hilt
      rw [hmod]
      have hchg := List.chain'_iff_get.mp hchain' i (by simp; omega)
      rw [List.getD_eq_get _ "" (by rw [List.length_cons]; omega),
        List.getD_eq_get _ "" (by rw [List.length_cons]; omega)]
      exact hchg
    · have hieq : i = tl.length := by omega
      subst hieq
      have hmod : (tl.length + 1) % (hd :: tl).length = 0 := by
        rw [List.length_cons]
        exact Nat.mod_self _
      rw [hmod]
      have hgl : (hd :: tl).getD tl.length "" = node := by
        have h := getD_last_of_getLast? hlast'
        simpa using h
      rw [hgl]
      rw [List.getD_eq_get _ "" (by simp)]
      have : (hd :: tl).get ⟨0, by simp⟩ = hd := rfl
      rw [this]
      exact hedge





theorem whiteCount_pos (keys : List String) (color : String → Color) (node : String)
    (hk : node ∈ keys) (hw : color node = .white) : 1 ≤ whiteCount keys color := by
  unfold whiteCount
  rw [Nat.succ_le_iff, List.countP_pos]
  exact ⟨node, hk, by simp [hw]⟩

theorem dfs_main (keys : List String) (depsF : String → List String) (K : Nat)
    (hK : ∀ n ∈ keys, (depsF n).length ≤ K)
    (hdom : ∀ n, depsF n ≠ [] → n ∈ keys) :
    ∀ fuel : Nat,
      (∀ st node, DfsInv keys depsF st → node ∈ keys → st.color node = .white →
        (∀ x, st.path.getLast? = some x → node ∈ depsF x) →
        (K + 2) * whiteCount keys st.color ≤ fuel →
        (match dfsStep keys depsF fuel (.visit node) st with
         | (_, some c) => CycleReport depsF c
         | (r, Option.none) =>
             DfsPostNone keys depsF st r ∧ r.path = st.path ∧ r.color node = .black))
      ∧ (∀ st ns node, DfsInv keys depsF st → node ∈ keys →
          st.path.getLast? = some node →
          (∀ n ∈ ns, n ∈ depsF node) →
          (∀ d ∈ depsF node, d ∈ keys → d ∉ ns → st.color d = .black) →
          (K + 2) * whiteCount keys st.color + ns.length + 1 ≤ fuel →
          (match dfsStep keys depsF fuel (.nexts ns node) st with
           | (_, some c) => CycleReport depsF c
           | (r, Option.none) =>
               DfsPostNone keys depsF st r ∧ r.path = st.path.dropLast
                 ∧ r.color node = .black)) := by
  intro fuel
  induction fuel with
  | zero =>
      constructor
      · intro st node _ hk hw _ hfuel
        exfalso
        have h1 := whiteCount_pos keys st.color node hk hw
        have : K + 2 ≤ (K + 2) * whiteCount keys st.color :=
          Nat.le_mul_of_pos_right _ (by omega)
        omega
      · intro st ns node _ _ _ _ _ hfuel
        exfalso
        omega
  | succ fuel ih =>
      constructor
      · -- visit case
        intro st node hInv hk hw hedge hfuel
        rw [dfsStep]
        have hInv₁ := dfsInv_push keys depsF st node hInv hk hw hedge
        have hlast₁ : (st.path ++ [node]).getLast? = some node := by
          rw [List.getLast?_append_of_ne_nil _ (by simp)]
          rfl
        have hwpush := whiteCount_push keys st.color node hk hw
        have hfuel₁ : (K + 2) * whiteCount keys
              (fun m => if m = node then Color.gray else st.color m)
              + (depsF node).length + 1 ≤ fuel := by
          have hD := hK node hk
          have hmul : (K + 2) * (whiteCount keys
                (fun m => if m = node then Color.gray else st.color m) + 1)
              ≤ (K + 2) * whiteCount keys st.color :=
            Nat.mul_le_mul_left _ hwpush
          rw [Nat.mul_add, Nat.mul_one] at hmul
          omega
        have hres := ih.2 ⟨fun m => if m = node then Color.gray else st.color m,
            st.path ++ [node]⟩ (depsF node) node hInv₁ hk hlast₁
            (fun n hn => hn)
            (fun d hd _ hdn => absurd hd hdn)
            hfuel₁
        rcases hstep : dfsStep keys depsF fuel
            (.nexts (depsF node) node)
            ⟨fun m => if m = node then Color.gray else st.color m, st.path ++ [node]⟩
          with ⟨r, oc⟩
        rw [hstep] at hres
        cases oc with
        | some c => exact hres
        | none =>
            obtain ⟨⟨hrInv, hrrank⟩, hrpath, hrnode⟩ := hres
            refine ⟨⟨hrInv, ?_⟩, ?_, hrnode⟩
            · intro m
              have h1 : colorRank (st.color m) ≤ colorRank
                  (if m = node then Color.gray else st.color m) := by
                by_cases hm : m = node
                · rw [if_pos hm, hm, hw]
                  simp [colorRank]
                · rw [if_neg hm]
              exact le_trans h1 (hrrank m)
            · rw [hrpath]
              simp
      · -- nexts case
        intro st ns node hInv hk hlast hsub hproc hfuel
        cases ns with
        | nil =>
            rw [dfsStep]
            have hblack : ∀ d ∈ depsF node, d ∈ keys → st.color d = .black :=
              fun d hd hdk => hproc d hd hdk (by simp)
            have hInv' := dfsInv_pop keys depsF hdom st node hInv hlast hblack
            have hgray : st.color node = .gray := by
              have hne : st.path ≠ [] := by
                intro hc
                rw [hc] at hlast
                simp at hlast
              refine (hInv.2.2.1 node).mpr ?_
              have h1 := List.getLast?_eq_getLast st.path hne
              rw [h1] at hlast
              injection hlast with hlast
              rw [← hlast]
              exact List.getLast_mem hne
            refine ⟨⟨hInv', ?_⟩, rfl, by simp⟩
            intro m
            by_cases hm : m = node
            · subst hm
              rw [hgray]
              simp [colorRank]
            · simp only [if_neg hm]
              exact le_refl _
        | cons n ns =>
            rw [dfsStep]
            by_cases hnk : n ∈ keys
            · rw [if_pos hnk]
              cases hcol : st.color n with
              | gray =>
                  have hnpath : n ∈ st.path := (hInv.2.2.1 n).mp hcol
                  show CycleReport depsF (cycleFrom st.path n)
                  exact cycleFrom_report depsF st.path node n hInv.1 hnpath hlast
                    (hsub n (by simp))
              | black =>
                  have hres := ih.2 st ns node hInv hk hlast
                    (fun m hm => hsub m (List.mem_cons_of_mem _ hm))
                    (fun d hd hdk hdn => by
                      by_cases hdneq : d = n
                      · rw [hdneq]; exact hcol
                      · exact hproc d hd hdk (by simp [hdneq, hdn]))
                    (by simp only [List.length_cons] at hfuel; omega)
                  show (match dfsStep keys depsF fuel (.nexts ns node) st with
                    | (_, some c) => CycleReport depsF c
                    | (r, Option.none) => DfsPostNone keys depsF st r
                        ∧ r.path = st.path.dropLast ∧ r.color node = Color.black)
                  exact hres
              | white =>
                  have hvisit := ih.1 st n hInv hnk hcol
                    (fun x hx => by
                      rw [hlast] at hx
                      injection hx with hx
                      rw [← hx]
                      exact hsub n (by simp))
                    (by simp only [List.length_cons] at hfuel; omega)
                  rcases hstep : dfsStep keys depsF fuel (.visit n) st with ⟨st', oc⟩
                  rw [hstep] at hvisit
                  cases oc with
                  | some c =>
                      show CycleReport depsF c
                      exact hvisit
                  | none =>
                      obtain ⟨⟨hInv', hrank'⟩, hpath', hncol'⟩ := hvisit
                      show (match dfsStep keys depsF fuel (.nexts ns node) st' with
                        | (_, some c) => CycleReport depsF c
                        | (r, Option.none) => DfsPostNone keys depsF st r
                            ∧ r.path = st.path.dropLast ∧ r.color node = Color.black)
                      have hres := ih.2 st' ns node hInv' hk
                        (by rw [hpath']; exact hlast)
                        (fun m hm => hsub m (List.mem_cons_of_mem _ hm))
                        (fun d hd hdk hdn => by
                          by_cases hdneq : d = n
                          · rw [hdneq]; exact hncol'
                          · exact colorRank_black_mono (hrank' d)
                              (hproc d hd hdk (by simp [hdneq, hdn])))
                        (by
                          have hwm := whiteCount_mono keys st.color st'.color hrank'
                          have hmul : (K + 2) * whiteCount keys st'.color
                              ≤ (K + 2) * whiteCount keys st.color :=
                            Nat.mul_le_mul_left _ hwm
                          simp only [List.length_cons] at hfuel
                          omega)
                      rcases hstep2 : dfsStep keys depsF fuel (.nexts ns node) st'
                        with ⟨r, oc2⟩
                      rw [hstep2] at hres
                      cases oc2 with
                      | some c =>
                          show CycleReport depsF c
                          exact hres
                      | none =>
                          obtain ⟨⟨hrInv, hrrank⟩, hrpath, hrnode⟩ := hres
                          refine ⟨⟨hrInv, fun m => le_trans (hrank' m) (hrrank m)⟩,
                            ?_, hrnode⟩
                          rw [hrpath, hpath']
            · rw [if_neg hnk]
              have hres := ih.2 st ns node hInv hk hlast
                (fun m hm => hsub m (List.mem_cons_of_mem _ hm))
                (fun d hd hdk hdn => by
                  by_cases hdneq : d = n
                  · rw [hdneq] at hdk; exact absurd hdk hnk
                  · exact hproc d hd hdk (by simp [hdneq, hdn]))
                (by simp only [List.length_cons] at hfuel; omega)
              exact hres





theorem maxDepLen_ge (deps : DepGraph) : ∀ p ∈ deps, p.2.length ≤ maxDepLen deps := by
  induction deps with
  | nil => simp
  | cons q rest ih =>
      intro p hp
      rcases List.mem_cons.mp hp with heq | hmem
      · rw [heq]
        unfold maxDepLen
        rw [List.foldr_cons]
        exact le_max_left _ _
      · unfold maxDepLen
        rw [List.foldr_cons]
        exact le_trans (ih p hmem) (le_max_right _ _)

theorem detectGo_spec (keys : List String) (depsF : String → List String) (K : Nat)
    (hK : ∀ n ∈ keys, (depsF n).length ≤ K)
    (hdom : ∀ n, depsF n ≠ [] → n ∈ keys)
    (fuel : Nat) (hfuel : (K + 2) * keys.length ≤ fuel) :
    ∀ (ks : List String) (st : DfsState), (∀ k ∈ ks, k ∈ keys) →
      DfsInv keys depsF st → st.path = [] →
      (match detectCycleGo keys depsF fuel ks st with
       | some c => CycleReport depsF c
       | Option.none => ∃ st', DfsInv keys depsF st' ∧ st'.path = []
           ∧ (∀ m, colorRank (st.color m) ≤ colorRank (st'.color m))
           ∧ (∀ k ∈ ks, st'.color k ≠ Color.white)) := by
  intro ks
  induction ks with
  | nil =>
      intro st _ hInv hpath
      exact ⟨st, hInv, hpath, fun m => le_refl _, by simp⟩
  | cons k ks ih =>
      intro st hks hInv hpath
      rw [detectCycleGo]
      by_cases hw : st.color k = Color.white
      · rw [if_pos hw]
        have hkk : k ∈ keys := hks k (by simp)
        have hvisit := (dfs_main keys depsF K hK hdom fuel).1 st k hInv hkk hw
          (fun x hx => by rw [hpath] at hx; simp at hx)
          (by
            have hcw : whiteCount keys st.color ≤ keys.length :=
              List.countP_le_length _
            have := Nat.mul_le_mul_left (K + 2) hcw
            omega)
        rcases hstep : dfsStep keys depsF fuel (.visit k) st with ⟨r, oc⟩
        rw [hstep] at hvisit
        cases oc with
        | some c =>
            show CycleReport depsF c
            exact hvisit
        | none =>
            obtain ⟨⟨hrInv, hrrank⟩, hrpath, hrblack⟩ := hvisit
            show (match detectCycleGo keys depsF fuel ks r with
              | some c => CycleReport depsF c
              | Option.none => ∃ st', DfsInv keys depsF st' ∧ st'.path = []
                  ∧ (∀ m, colorRank (st.color m) ≤ colorRank (st'.color m))
                  ∧ (∀ m ∈ k :: ks, st'.color m ≠ Color.white))
            have hres := ih r (fun m hm => hks m (List.mem_cons_of_mem _ hm)) hrInv
              (by rw [hrpath, hpath])
            rcases hgo : detectCycleGo keys depsF fuel ks r with _ | c
            · rw [hgo] at hres
              obtain ⟨st', hI', hp', hrk', hbl'⟩ := hres
              refine ⟨st', hI', hp', fun m => le_trans (hrrank m) (hrk' m), ?_⟩
              intro m hm
              rcases List.mem_cons.mp hm with heq | hmem
              · subst heq
                have : st'.color m = Color.black :=
                  colorRank_black_mono (hrk' m) hrblack
                rw [this]
                simp
              · exact hbl' m hmem
            · rw [hgo] at hres
              exact hres
      · rw [if_neg hw]
        have hres := ih st (fun m hm => hks m (List.mem_cons_of_mem _ hm)) hInv hpath
        rcases hgo : detectCycleGo keys depsF fuel ks st with _ | c
        · rw [hgo] at hres
          obtain ⟨st', hI', hp', hrk', hbl'⟩ := hres
          refine ⟨st', hI', hp', hrk', ?_⟩
          intro m hm
          rcases List.mem_cons.mp hm with heq | hmem
          · subst heq
            intro hc
            exact hw (colorRank_white_back (hrk' m) hc)
          · exact hbl' m hmem
        · rw [hgo] at hres
          exact hres





theorem depsOfFn_dom (deps : DepGraph) :
    ∀ n, depsOfFn deps n ≠ [] → n ∈ deps.map Prod.fst := by
  intro n hne
  unfold depsOfFn at hne
  cases halo : alookup deps n with
  | none => rw [halo] at hne; simp at hne
  | some v => exact List.mem_map_of_mem Prod.fst (alookup_mem deps n v halo)

theorem depsOfFn_len_le (deps : DepGraph) :
    ∀ n ∈ deps.map Prod.fst, (depsOfFn deps n).length ≤ maxDepLen deps := by
  intro n _
  unfold depsOfFn
  cases halo : alookup deps n with
  | none => simp
  | some v =>
      simpa using maxDepLen_ge deps _ (alookup_mem deps n v halo)

theorem dfsInv_initial (keys : List String) (depsF : String → List String) :
    DfsInv keys depsF ⟨fun _ => Color.white, []⟩ := by
  refine ⟨List.chain'_nil, List.nodup_nil, ?_, by simp, ?_, ?_⟩
  · intro m
    simp
  · intro b hb
    exact absurd hb (by simp)
  · rintro ⟨c, hcyc, hblack⟩
    have hne := hcyc.1
    obtain ⟨x, hx⟩ := List.exists_mem_of_ne_nil c hne
    have := hblack x hx
    exact absurd this (by simp)

theorem detect_cycle_sound (deps : DepGraph) (c : List String)
    (h : detect_cycle deps = some c) :
    ∃ x xs, c = x :: xs ++ [x] ∧ IsCycle deps (x :: xs) := by
  have hspec := detectGo_spec (deps.map Prod.fst) (depsOfFn deps) (maxDepLen deps)
    (depsOfFn_len_le deps) (depsOfFn_dom deps) (dfsFuel deps)
    (by unfold dfsFuel; rw [List.length_map]) (deps.map Prod.fst)
    ⟨fun _ => Color.white, []⟩ (fun k hk => hk)
    (dfsInv_initial _ _) rfl
  unfold detect_cycle at h
  rw [h] at hspec
  exact hspec

theorem detect_cycle_complete (deps : DepGraph) (h : detect_cycle deps = Option.none) :
    ¬ ∃ c, IsCycle deps c := by
  have hspec := detectGo_spec (deps.map Prod.fst) (depsOfFn deps) (maxDepLen deps)
    (depsOfFn_len_le deps) (depsOfFn_dom deps) (dfsFuel deps)
    (by unfold dfsFuel; rw [List.length_map]) (deps.map Prod.fst)
    ⟨fun _ => Color.white, []⟩ (fun k hk => hk)
    (dfsInv_initial _ _) rfl
  unfold detect_cycle at h
  rw [h] at hspec
  obtain ⟨st', hInv', hpath', _, hblack'⟩ := hspec
  rintro ⟨c, hcyc⟩
  apply hInv'.2.2.2.2.2
  refine ⟨c, hcyc, ?_⟩
  intro x hx
  have hxk := cycleF_mem_keys (deps.map Prod.fst) (depsOfFn deps)
    (depsOfFn_dom deps) c hcyc x hx
  have hnw := hblack' x hxk
  have hng : st'.color x ≠ Color.gray := by
    intro hg
    have := (hInv'.2.2.1 x).mp hg
    rw [hpath'] at this
    simp at this
  cases hcase : st'.color x with
  | white => exact absurd hcase hnw
  | gray => exact absurd hcase hng
  | black => rfl





theorem aupsert_alookup {α : Type} (m : List (String × α)) (k : String) (v : α) :
    ∀ key, alookup (aupsert m k v) key = if k = key then some v else alookup m key := by
  induction m with
  | nil =>
      intro key
      by_cases h : k = key <;> simp [aupsert, alookup, h]
  | cons p rest ih =>
      intro key
      obtain ⟨k', v'⟩ := p
      by_cases h1 : k' = k
      · subst h1
        by_cases h2 : k' = key <;> simp [aupsert, alookup, h2]
      · by_cases h2 : k' = key
        · subst h2
          have h3 : ¬ k = k' := fun hc => h1 hc.symm
          simp [aupsert, alookup, h1, h3]
        · simp [aupsert, alookup, h1, h2, ih key]

theorem foldl_upsert_mem {α : Type} (f : α → String) :
    ∀ (l : List α) (acc : List (String × α)) (s : String) (v : α),
      alookup (l.foldl (fun m n => aupsert m (f n) n) acc) s = some v →
      v ∈ l ∨ alookup acc s = some v := by
  intro l
  induction l with
  | nil =>
      intro acc s v h
      exact Or.inr h
  | cons n rest ih =>
      intro acc s v h
      rw [List.foldl_cons] at h
      rcases ih _ _ _ h with hmem | hacc
      · exact Or.inl (List.mem_cons_of_mem _ hmem)
      · rw [aupsert_alookup] at hacc
        by_cases hs : f n = s
        · rw [if_pos hs] at hacc
          injection hacc with hacc
          exact Or.inl (hacc ▸ List.mem_cons_self _ _)
        · rw [if_neg hs] at hacc
          exact Or.inr hacc

theorem nodesMap_mem (g : Graph) (s : String) (n : GNode)
    (h : alookup (nodesMapOf g) s = some n) : n ∈ g.nodes := by
  rcases foldl_upsert_mem GNode.name g.nodes [] s n h with hm | hacc
  · exact hm
  · rw [alookup] at hacc
    exact absurd hacc (by simp)

theorem checkInputs_append_ok (nm : List (String × GNode)) (reg : Registry) (nodeName : String) :
    ∀ (inputs : List (String × PyValue)),
      (∀ p ∈ inputs, checkInput nm reg nodeName p.1 p.2 = .ok ()) →
      checkInputs nm reg nodeName inputs = .ok () := by
  intro inputs
  induction inputs with
  | nil => intro _; rfl
  | cons p rest ih =>
      intro h
      obtain ⟨k, v⟩ := p
      rw [checkInputs]
      rw [h (k, v) (List.mem_cons_self _ _)]
      exact ih (fun q hq => h q (List.mem_cons_of_mem _ hq))

theorem checkNodes_all_ok (nm : List (String × GNode)) (reg : Registry) :
    ∀ (nodes : List GNode),
      (∀ n ∈ nodes, checkNode nm reg n = .ok ()) →
      checkNodes nm reg nodes = .ok () := by
  intro nodes
  induction nodes with
  | nil => intro _; rfl
  | cons n rest ih =>
      intro h
      rw [checkNodes, h n (List.mem_cons_self _ _)]
      exact ih (fun m hm => h m (List.mem_cons_of_mem _ hm))

/-- C3 (amended): for every graph definition whose per-node checks all pass
(every bound transformer resolves and every node-output reference is
well-formed and valid), if the derived dependency graph contains a cycle then
`validate_graph` fails with a circular-dependency condition, and the reported
path is an actual cycle of the dependency graph rendered as an ordered list
of node names whose first element recurs at the end (hence a rotation of a
genuine cycle). -/
theorem validate_graph_reports_cycle (g : Graph) (reg : Registry)
    (hok : ∀ n ∈ g.nodes, checkNode (nodesMapOf g) reg n = .ok ())
    (hcyc : ∃ c, IsCycle (build_dependency_graph g) c) :
    ∃ p x xs, validate_graph g reg = .error (.circularDependency p)
      ∧ p = x :: xs ++ [x] ∧ IsCycle (build_dependency_graph g) (x :: xs) := by
  cases hdet : detect_cycle (build_dependency_graph g) with
  | none => exact absurd hcyc (detect_cycle_complete _ hdet)
  | some p =>
      obtain ⟨x, xs, hshape, hc⟩ := detect_cycle_sound _ p hdet
      refine ⟨p, x, xs, ?_, hshape, hc⟩
      unfold validate_graph
      rw [checkNodes_all_ok _ _ _ hok, hdet]





theorem checkInput_error_cases (nm : List (String × GNode)) (reg : Registry)
    (n k : String) (src : PyValue) (e : VErr)
    (h : checkInput nm reg n k src = .error e) :
    (∃ s, e = .invalidRefFormat n s)
    ∨ (∃ s, e = .unknownNode n k s ∧ alookup nm s = Option.none)
    ∨ (∃ t s n', e = .keyError t ∧ alookup nm s = some n' ∧ n'.transformer = t
        ∧ reg t = Option.none)
    ∨ (∃ out tn os, e = .unknownOutput n k out tn os ∧ out ∉ os) := by
  cases src with
  | str s =>
      rw [checkInput] at h
      cases hd : s.data with
      | nil =>
          rw [hd] at h
          exact absurd h (by simp)
      | cons c cs =>
          rw [hd] at h
          split at h
          · next ref heq =>
              split at h
              · exact absurd h (by simp)
              · split at h
                · next hsplit =>
                    injection h with h
                    exact Or.inl ⟨s, h.symm⟩
                · next a b hsplit =>
                    dsimp only at h
                    rcases halo : alookup nm (String.mk a) with _ | srcNode
                    · rw [halo] at h
                      injection h with h
                      exact Or.inr (Or.inl ⟨String.mk a, h.symm, halo⟩)
                    · rw [halo] at h
                      dsimp only at h
                      rcases hreg : reg srcNode.transformer with _ | t
                      · rw [hreg] at h
                        injection h with h
                        exact Or.inr (Or.inr (Or.inl
                          ⟨srcNode.transformer, String.mk a, srcNode, h.symm, halo, rfl, hreg⟩))
                      · rw [hreg] at h
                        dsimp only at h
                        by_cases hout : String.mk b ∈ t.outputs
                        · rw [if_pos hout] at h
                          exact absurd h (by simp)
                        · rw [if_neg hout] at h
                          injection h with h
                          exact Or.inr (Or.inr (Or.inr
                            ⟨String.mk b, srcNode.transformer, t.outputs, h.symm, hout⟩))
          · exact absurd h (by simp)
  | none => exact absurd h (by simp [checkInput])
  | bool b => exact absurd h (by simp [checkInput])
  | int i => exact absurd h (by simp [checkInput])
  | list xs => exact absurd h (by simp [checkInput])
  | tuple xs => exact absurd h (by simp [checkInput])
  | dict es => exact absurd h (by simp [checkInput])
  | other r => exact absurd h (by simp [checkInput])

theorem checkInputs_first_error (nm : List (String × GNode)) (reg : Registry)
    (nodeName : String) (k : String) (src : PyValue) (e : VErr) :
    ∀ (ipre : List (String × PyValue)) (ipost : List (String × PyValue)),
      (∀ p ∈ ipre, checkInput nm reg nodeName p.1 p.2 = .ok ()) →
      checkInput nm reg nodeName k src = .error e →
      checkInputs nm reg nodeName (ipre ++ (k, src) :: ipost) = .error e := by
  intro ipre
  induction ipre with
  | nil =>
      intro ipost _ herr
      rw [List.nil_append, checkInputs, herr]
  | cons p rest ih =>
      intro ipost hpre herr
      obtain ⟨k', v'⟩ := p
      rw [List.cons_append, checkInputs, hpre (k', v') (List.mem_cons_self _ _)]
      exact ih ipost (fun q hq => hpre q (List.mem_cons_of_mem _ hq)) herr

theorem checkNodes_first_error (nm : List (String × GNode)) (reg : Registry)
    (node : GNode) (e : VErr) :
    ∀ (pre post : List GNode),
      (∀ n ∈ pre, checkNode nm reg n = .ok ()) →
      checkNode nm reg node = .error e →
      checkNodes nm reg (pre ++ node :: post) = .error e := by
  intro pre
  induction pre with
  | nil =>
      intro post _ herr
      rw [List.nil_append, checkNodes, herr]
  | cons m rest ih =>
      intro post hpre herr
      rw [List.cons_append, checkNodes, hpre m (List.mem_cons_self _ _)]
      exact ih post (fun q hq => hpre q (List.mem_cons_of_mem _ hq)) herr

/-- C4 (amended): suppose every node's bound transformer resolves, and the
first wiring entry that fails the validator's checks -- in node order, then
wiring order -- is input `k` of `node`.  Then `validate_graph` fails with
exactly that entry's failure, which identifies the offending node and
reference: an invalid reference format naming the node and the source string,
an unknown-node failure naming the node, the input key and the missing
referenced node, or an unknown-output failure naming the node, the input key
and the undeclared output. -/
theorem validate_graph_reports_bad_reference (g : Graph) (reg : Registry)
    (pre post : List GNode) (node : GNode) (ipre ipost : List (String × PyValue))
    (k : String) (src : PyValue) (e : VErr)
    (hnodes : g.nodes = pre ++ node :: post)
    (hinputs : node.inputs = ipre ++ (k, src) :: ipost)
    (hpre : ∀ n ∈ pre, checkNode (nodesMapOf g) reg n = .ok ())
    (htrans : (reg node.transformer).isSome)
    (hipre : ∀ p ∈ ipre, checkInput (nodesMapOf g) reg node.name p.1 p.2 = .ok ())
    (herr : checkInput (nodesMapOf g) reg node.name k src = .error e)
    (halltrans : ∀ n ∈ g.nodes, (reg n.transformer).isSome) :
    validate_graph g reg = .error e
    ∧ ((∃ s, e = .invalidRefFormat node.name s)
       ∨ (∃ s, e = .unknownNode node.name k s ∧ alookup (nodesMapOf g) s = Option.none)
       ∨ (∃ out tn os, e = .unknownOutput node.name k out tn os ∧ out ∉ os)) := by
  constructor
  · have hcn : checkNode (nodesMapOf g) reg node = .error e := by
      unfold checkNode
      obtain ⟨t, ht⟩ := Option.isSome_iff_exists.mp htrans
      rw [ht, hinputs]
      exact checkInputs_first_error _ _ _ k src e ipre ipost hipre herr
    unfold validate_graph
    rw [hnodes, checkNodes_first_error _ _ node e pre post hpre hcn]
  · rcases checkInput_error_cases _ _ _ _ _ _ herr with h1 | h2 | h3 | h4
    · exact Or.inl h1
    · exact Or.inr (Or.inl h2)
    · exfalso
      obtain ⟨t, s, n', _, halo, htr, hrt⟩ := h3
      have hmem := nodesMap_mem g s n' halo
      have := halltrans n' hmem
      rw [htr, hrt] at this
      exact absurd this (by simp)
    · exact Or.inr (Or.inr h4)

/-! ## Witnesses and counterexamples for C2, C3, C4 -/

theorem validate_graph_reports_cycle_witness :
    (∃ c, IsCycle (build_dependency_graph gCycle) c)
    ∧ (∃ p x xs, validate_graph gCycle regEcho = .error (.circularDependency p)
        ∧ p = x :: xs ++ [x] ∧ IsCycle (build_dependency_graph gCycle) (x :: xs))
    ∧ validate_graph gCycle regEcho = .error (.circularDependency ["a", "b", "a"]) := by
  have hok : ∀ n ∈ gCycle.nodes, checkNode (nodesMapOf gCycle) regEcho n = .ok () := by
    intro n hn
    rcases List.mem_cons.mp hn with heq | hn
    · rw [heq]; rfl
    rcases List.mem_cons.mp hn with heq | hn
    · rw [heq]; rfl
    · simp at hn
  have hcyc : IsCycle (build_dependency_graph gCycle) ["a", "b"] := ⟨by decide, by decide⟩
  exact ⟨⟨_, hcyc⟩, validate_graph_reports_cycle gCycle regEcho hok ⟨_, hcyc⟩, rfl⟩

theorem cycle_report_preempted_counterexample :
    IsCycle (build_dependency_graph gCycleBadT) ["a", "b"]
    ∧ validate_graph gCycleBadT regEcho = .error (.unknownTransformer "a" "missing") :=
  ⟨⟨by decide, by decide⟩, rfl⟩

theorem validate_graph_reports_bad_reference_witness :
    validate_graph gBadRef regEcho = .error (.unknownNode "a" "value" "zzz") := by
  have h := validate_graph_reports_bad_reference gBadRef regEcho
    [] [] ⟨"a", "echo", [("value", .str "$zzz.result")]⟩ [] []
    "value" (.str "$zzz.result") (.unknownNode "a" "value" "zzz")
    rfl rfl (by simp) (by rfl) (by simp) rfl
    (by
      intro n hn
      rcases List.mem_cons.mp hn with heq | hn
      · rw [heq]; rfl
      · simp at hn)
  exact h.1

theorem bad_reference_preempted_counterexample :
    checkInput (nodesMapOf gBadRefPreempt) regEcho "b" "value" (.str "$zzz.result")
      = .error (.unknownNode "b" "value" "zzz")
    ∧ validate_graph gBadRefPreempt regEcho = .error (.unknownTransformer "a" "missing") :=
  ⟨rfl, rfl⟩

theorem topological_sort_correct_witness :
    (¬ ∃ c, IsCycle depsAcyc c)
    ∧ (topological_sort depsAcyc).Perm (depsAcyc.map Prod.fst)
    ∧ topological_sort depsAcyc = ["a", "b", "c"] := by
  have hacyc : ¬ ∃ c, IsCycle depsAcyc c := detect_cycle_complete depsAcyc rfl
  exact ⟨hacyc,
    (topological_sort_correct depsAcyc (by decide) (by decide) (by decide) hacyc).1, rfl⟩

mutual
/-- Serialization followed by deserialization is the identity exactly on the
JSON-native fragment. -/
theorem jsonRoundTrip_eq_self (v : PyValue) (h : jsonPure v = true) :
    jsonRoundTrip v = v := by
  cases v with
  | list xs => simp only [jsonPure] at h; simp [jsonRoundTrip, jsonRoundTripList_eq_self xs h]
  | dict es => simp only [jsonPure] at h; simp [jsonRoundTrip, jsonRoundTripDict_eq_self es h]
  | tuple xs => simp [jsonPure] at h
  | other r => simp [jsonPure] at h
  | _ => rfl
/-- List version of `jsonRoundTrip_eq_self`. -/
theorem jsonRoundTripList_eq_self (xs : PyList) (h : jsonPureList xs = true) :
    jsonRoundTripList xs = xs := by
  cases xs with
  | nil => rfl
  | cons v tl =>
      simp only [jsonPureList, Bool.and_eq_true] at h
      simp [jsonRoundTripList, jsonRoundTrip_eq_self v h.1, jsonRoundTripList_eq_self tl h.2]
/-- Dict version of `jsonRoundTrip_eq_self`. -/
theorem jsonRoundTripDict_eq_self (es : PyDict) (h : jsonPureDict es = true) :
    jsonRoundTripDict es = es := by
  cases es with
  | nil => rfl
  | cons k v tl =>
      simp only [jsonPureDict, Bool.and_eq_true] at h
      simp [jsonRoundTripDict, jsonRoundTrip_eq_self v h.1, jsonRoundTripDict_eq_self tl h.2]
end

/-! ## Executor step characterization -/

/-- The keys of a resolved input bag are exactly the wiring keys, in order. -/
theorem pdKeys_resolveBag (inputs : List (String × PyValue))
    (config nodeOutputs : List (String × PyValue)) :
    pdKeys (resolveBag inputs config nodeOutputs) = inputs.map Prod.fst := by
  induction inputs with
  | nil => rfl
  | cons p rest ih => cases p; simp [resolveBag, pdKeys, ih]

/-- Artifact file names of the same run differ on distinct node names. -/
theorem artifactKey_inj (rid a b : String) (h : artifactKey rid a = artifactKey rid b) :
    a = b := by
  have h1 := congrArg String.data h
  simp only [artifactKey, String.data_append] at h1
  have h2 : a.data = b.data := List.append_cancel_left h1
  calc a = String.mk a.data := rfl
    _ = String.mk b.data := by rw [h2]
    _ = b := rfl

/-- A loaded value surviving the `is not None` guard is the stored one. -/
theorem nullToMiss_eq_some (o : Option PyValue) (v : PyValue)
    (h : nullToMiss o = some v) : o = some v := by
  cases o with
  | none => simp [nullToMiss] at h
  | some w =>
      cases w
      case none => simp [nullToMiss] at h
      all_goals exact h

/-- A stored non-null value passes the `is not None` guard unchanged. -/
theorem nullToMiss_some (v : PyValue) (hv : v ≠ PyValue.none) :
    nullToMiss (some v) = some v := by
  cases v
  case none => exact absurd rfl hv
  all_goals rfl

/-- A successful node step is either a cache hit (the node is cached, an
artifact directory is present and the artifact exists: adopt the loaded value,
touch nothing else) or a full execution. -/
theorem execNode_cases (nodesMap : List (String × GNode)) (reg : Registry)
    (config : List (String × PyValue)) (ad : Bool) (cached : List String)
    (rid : String) (st : ExecState) (n : String) (st' : ExecState)
    (h : execNode nodesMap reg config ad cached rid st n = .ok st') :
    (∃ v, n ∈ cached ∧ ad = true ∧ alookup st.store (artifactKey rid n) = some v
       ∧ st' = { st with nodeOutputs := aupsert st.nodeOutputs n v })
    ∨ (∃ node t, alookup nodesMap n = some node ∧ reg node.transformer = some t
       ∧ st' = execResult t node config ad rid st n) := by
  unfold execNode at h
  dsimp only at h
  split at h
  next v heq =>
    injection h with h
    left
    by_cases hn : n ∈ cached
    · rw [if_pos hn] at heq
      cases ad with
      | false => simp at heq
      | true =>
          simp only [if_true] at heq
          exact ⟨v, hn, rfl, nullToMiss_eq_some _ _ heq, h.symm⟩
    · rw [if_neg hn] at heq
      exact absurd heq (by simp)
  next heq =>
    split at h
    next => exact absurd h (by simp)
    next node heq2 =>
      split at h
      next => exact absurd h (by simp)
      next t heq3 =>
        injection h with h
        right
        exact ⟨node, t, heq2, heq3, h.symm⟩

/-- A cached node with a present non-null artifact takes the cache branch. -/
theorem execNode_cache_hit (nodesMap : List (String × GNode)) (reg : Registry)
    (config : List (String × PyValue)) (cached : List String) (rid : String)
    (st : ExecState) (n : String) (v : PyValue)
    (hn : n ∈ cached) (hnn : v ≠ PyValue.none)
    (hv : alookup st.store (artifactKey rid n) = some v) :
    execNode nodesMap reg config true cached rid st n =
      .ok { st with nodeOutputs := aupsert st.nodeOutputs n v } := by
  unfold execNode
  dsimp only
  rw [if_pos hn, if_pos rfl, hv, nullToMiss_some v hnn]


/-! ## Run-long invariants of the node loop -/

/-- Along a successful run, every invocation record carries the bag resolved
from its node's wiring against some node-output state. -/
theorem execGo_invoked_inv (nodesMap : List (String × GNode)) (reg : Registry)
    (config : List (String × PyValue)) (ad : Bool) (cached : List String)
    (rid : String) (order : List String) :
    ∀ (st st' : ExecState),
      execGo nodesMap reg config ad cached rid order st = .ok st' →
      (∀ rec ∈ st.invoked, ∃ node outs, alookup nodesMap rec.node = some node
          ∧ rec.inputBag = resolveBag node.inputs config outs) →
      (∀ rec ∈ st'.invoked, ∃ node outs, alookup nodesMap rec.node = some node
          ∧ rec.inputBag = resolveBag node.inputs config outs) := by
  induction order with
  | nil =>
      intro st st' h hinv
      simp only [execGo] at h
      injection h with h
      exact h ▸ hinv
  | cons m rest ih =>
      intro st st' h hinv
      simp only [execGo] at h
      cases hstep : execNode nodesMap reg config ad cached rid st m with
      | error e => rw [hstep] at h; simp at h
      | ok st1 =>
          rw [hstep] at h
          dsimp only at h
          refine ih st1 st' h ?_
          rcases execNode_cases nodesMap reg config ad cached rid st m st1 hstep with
            ⟨v, _, _, _, hst1⟩ | ⟨node, t, hnode, ht, hst1⟩
          · rw [hst1]; exact hinv
          · rw [hst1]
            intro rec hrec
            dsimp only [execResult] at hrec
            rcases List.mem_append.mp hrec with hrec | hrec
            · exact hinv rec hrec
            · have heq := List.mem_singleton.mp hrec
              subst heq
              exact ⟨node, st.nodeOutputs, hnode, rfl⟩

/-- Every node of the order ends up bound in the output map, and nodes outside
the order keep their prior binding. -/
theorem execGo_outputs (nodesMap : List (String × GNode)) (reg : Registry)
    (config : List (String × PyValue)) (ad : Bool) (cached : List String)
    (rid : String) (order : List String) :
    ∀ (st st' : ExecState),
      execGo nodesMap reg config ad cached rid order st = .ok st' →
      ∀ n, (n ∈ order → ∃ v, alookup st'.nodeOutputs n = some v)
        ∧ (n ∉ order → alookup st'.nodeOutputs n = alookup st.nodeOutputs n) := by
  induction order with
  | nil =>
      intro st st' h n
      simp only [execGo] at h
      injection h with h
      subst h
      exact ⟨fun hn => absurd hn (List.not_mem_nil n), fun _ => rfl⟩
  | cons m rest ih =>
      intro st st' h n
      simp only [execGo] at h
      cases hstep : execNode nodesMap reg config ad cached rid st m with
      | error e => rw [hstep] at h; simp at h
      | ok st1 =>
          rw [hstep] at h
          dsimp only at h
          have hup : ∃ w, st1.nodeOutputs = aupsert st.nodeOutputs m w := by
            rcases execNode_cases nodesMap reg config ad cached rid st m st1 hstep with
              ⟨v, _, _, _, hst1⟩ | ⟨node, t, _, _, hst1⟩
            · exact ⟨v, by rw [hst1]⟩
            · exact ⟨.dict (t.process (resolveBag node.inputs config st.nodeOutputs)).1,
                by subst hst1; rfl⟩
          obtain ⟨w, hw⟩ := hup
          obtain ⟨hcov, hfr⟩ := ih st1 st' h n
          constructor
          · intro hnn
            rcases List.mem_cons.mp hnn with heq | hn2
            · subst heq
              by_cases hr : n ∈ rest
              · exact hcov hr
              · refine ⟨w, ?_⟩
                rw [hfr hr, hw, aupsert_alookup]
                simp
            · exact hcov hn2
          · intro hn
            have hm : n ≠ m := fun he => hn (he ▸ List.mem_cons_self m rest)
            have hr : n ∉ rest := fun hr => hn (List.mem_cons_of_mem m hr)
            rw [hfr hr, hw, aupsert_alookup, if_neg (Ne.symm hm)]

/-- Cache-hit frame: once the artifact for `n` is in the store and no unit
invocation for `n` has happened, a run with `n` cached keeps the artifact
unchanged, never invokes `n`, and binds `n` to the loaded artifact whenever
`n` occurs in the order. -/
theorem execGo_cached_frame (nodesMap : List (String × GNode)) (reg : Registry)
    (config : List (String × PyValue)) (cached : List String) (rid : String)
    (n : String) (j : PyValue) (hn : n ∈ cached) (hjn : j ≠ PyValue.none)
    (order : List String) :
    ∀ (st st' : ExecState),
      execGo nodesMap reg config true cached rid order st = .ok st' →
      alookup st.store (artifactKey rid n) = some j →
      (∀ rec ∈ st.invoked, rec.node ≠ n) →
      alookup st'.store (artifactKey rid n) = some j
      ∧ (∀ rec ∈ st'.invoked, rec.node ≠ n)
      ∧ (n ∈ order → alookup st'.nodeOutputs n = some j)
      ∧ (n ∉ order → alookup st'.nodeOutputs n = alookup st.nodeOutputs n) := by
  induction order with
  | nil =>
      intro st st' h hs hi
      simp only [execGo] at h
      injection h with h
      subst h
      exact ⟨hs, hi, fun hm => absurd hm (List.not_mem_nil n), fun _ => rfl⟩
  | cons m rest ih =>
      intro st st' h hs hi
      simp only [execGo] at h
      cases hstep : execNode nodesMap reg config true cached rid st m with
      | error e => rw [hstep] at h; simp at h
      | ok st1 =>
          rw [hstep] at h
          dsimp only at h
          by_cases hmn : m = n
          · subst hmn
            have hhit := execNode_cache_hit nodesMap reg config cached rid st m j hn hjn hs
            rw [hhit] at hstep
            injection hstep with hstep
            obtain ⟨h1, h2, h3, h4⟩ := ih st1 st' h (by rw [← hstep]; exact hs)
              (by rw [← hstep]; exact hi)
            refine ⟨h1, h2, fun _ => ?_, fun hnin => absurd (List.mem_cons_self m rest) hnin⟩
            by_cases hr : m ∈ rest
            · exact h3 hr
            · rw [h4 hr, ← hstep]
              dsimp only
              rw [aupsert_alookup]
              simp
          · rcases execNode_cases nodesMap reg config true cached rid st m st1 hstep with
              ⟨v, _, _, _, hst1⟩ | ⟨node, t, _, _, hst1⟩
            · have hs1 : alookup st1.store (artifactKey rid n) = some j := by
                rw [hst1]; exact hs
              have hi1 : ∀ rec ∈ st1.invoked, rec.node ≠ n := by
                rw [hst1]; exact hi
              obtain ⟨h1, h2, h3, h4⟩ := ih st1 st' h hs1 hi1
              refine ⟨h1, h2, ?_, ?_⟩
              · intro hmem
                rcases List.mem_cons.mp hmem with heq | hr
                · exact absurd heq.symm hmn
                · exact h3 hr
              · intro hnin
                have hr : n ∉ rest := fun hr => hnin (List.mem_cons_of_mem m hr)
                rw [h4 hr, hst1]
                dsimp only
                rw [aupsert_alookup]
                simp [hmn]
            · have hs1 : alookup st1.store (artifactKey rid n) = some j := by
                rw [hst1]
                dsimp only [execResult]
                rw [if_pos rfl, aupsert_alookup]
                rw [if_neg (fun hk => hmn (artifactKey_inj rid m n hk))]
                exact hs
              have hi1 : ∀ rec ∈ st1.invoked, rec.node ≠ n := by
                rw [hst1]
                intro rec hrec
                dsimp only [execResult] at hrec
                rcases List.mem_append.mp hrec with hrec | hrec
                · exact hi rec hrec
                · have heq := List.mem_singleton.mp hrec
                  subst heq
                  exact hmn
              obtain ⟨h1, h2, h3, h4⟩ := ih st1 st' h hs1 hi1
              refine ⟨h1, h2, ?_, ?_⟩
              · intro hmem
                rcases List.mem_cons.mp hmem with heq | hr
                · exact absurd heq.symm hmn
                · exact h3 hr
              · intro hnin
                have hr : n ∉ rest := fun hr => hnin (List.mem_cons_of_mem m hr)
                rw [h4 hr, hst1]
                dsimp only [execResult]
                rw [aupsert_alookup]
                simp [hmn]

/-- Folding artifact merges distributes over appending invocation lists. -/
theorem artFold_append (xs ys : List InvokeRec) (acc : List (String × String)) :
    artFold (xs ++ ys) acc = artFold ys (artFold xs acc) := by
  simp [artFold, List.foldl_append]

/-- A successful run appends its new invocation records and merges exactly
their artifacts on top of the incoming artifact map. -/
theorem execGo_artifacts (nodesMap : List (String × GNode)) (reg : Registry)
    (config : List (String × PyValue)) (ad : Bool) (cached : List String)
    (rid : String) (order : List String) :
    ∀ (st st' : ExecState),
      execGo nodesMap reg config ad cached rid order st = .ok st' →
      ∃ recs, st'.invoked = st.invoked ++ recs
        ∧ st'.allArtifacts = artFold recs st.allArtifacts := by
  induction order with
  | nil =>
      intro st st' h
      simp only [execGo] at h
      injection h with h
      subst h
      exact ⟨[], by simp, by simp [artFold]⟩
  | cons m rest ih =>
      intro st st' h
      simp only [execGo] at h
      cases hstep : execNode nodesMap reg config ad cached rid st m with
      | error e => rw [hstep] at h; simp at h
      | ok st1 =>
          rw [hstep] at h
          dsimp only at h
          obtain ⟨recs, hinv, hart⟩ := ih st1 st' h
          rcases execNode_cases nodesMap reg config ad cached rid st m st1 hstep with
            ⟨v, _, _, _, hst1⟩ | ⟨node, t, _, _, hst1⟩
          · exact ⟨recs, by rw [hinv, hst1], by rw [hart, hst1]⟩
          · refine ⟨⟨m, resolveBag node.inputs config st.nodeOutputs,
                (t.process (resolveBag node.inputs config st.nodeOutputs)).2⟩ :: recs, ?_, ?_⟩
            · rw [hinv, hst1]
              dsimp only [execResult]
              simp
            · rw [hart, hst1]
              dsimp only [execResult]
              simp [artFold]

/-- Values surviving a single artifact merge come from the merged list or from
the accumulator. -/
theorem foldl_aupsert_lookup (l : List (String × String)) :
    ∀ (acc : List (String × String)) (kk : String) (v : String),
      alookup (l.foldl (fun m p => aupsert m p.1 p.2) acc) kk = some v →
      (∃ p ∈ l, p.1 = kk ∧ p.2 = v) ∨ alookup acc kk = some v := by
  induction l with
  | nil => intro acc kk v h; exact Or.inr h
  | cons p rest ih =>
      intro acc kk v h
      simp only [List.foldl_cons] at h
      rcases ih (aupsert acc p.1 p.2) kk v h with hl | hacc
      · obtain ⟨q, hq, hq1, hq2⟩ := hl
        exact Or.inl ⟨q, List.mem_cons_of_mem p hq, hq1, hq2⟩
      · rw [aupsert_alookup] at hacc
        by_cases hk : p.1 = kk
        · rw [if_pos hk] at hacc
          injection hacc with hacc
          exact Or.inl ⟨p, List.mem_cons_self p rest, hk, hacc⟩
        · rw [if_neg hk] at hacc
          exact Or.inr hacc

/-- Values surviving the full artifact merge come from some invocation record
or from the accumulator. -/
theorem artFold_lookup (recs : List InvokeRec) :
    ∀ (acc : List (String × String)) (kk : String) (v : String),
      alookup (artFold recs acc) kk = some v →
      (∃ rec ∈ recs, ∃ p ∈ rec.outArtifacts, p.1 = kk ∧ p.2 = v)
      ∨ alookup acc kk = some v := by
  induction recs with
  | nil => intro acc kk v h; exact Or.inr h
  | cons r rest ih =>
      intro acc kk v h
      simp only [artFold, List.foldl_cons] at h
      rcases ih _ kk v h with hl | hacc
      · obtain ⟨rec, hrec, hp⟩ := hl
        exact Or.inl ⟨rec, List.mem_cons_of_mem r hrec, hp⟩
      · rcases foldl_aupsert_lookup r.outArtifacts acc kk v hacc with hp | hacc2
        · exact Or.inl ⟨r, List.mem_cons_self r rest, hp⟩
        · exact Or.inr hacc2

/-- First-run store invariant: with no nodes cached and an artifact directory
present, every bound node output has its serialized form in the store. -/
theorem execGo_run1_store (nodesMap : List (String × GNode)) (reg : Registry)
    (config : List (String × PyValue)) (rid : String) (order : List String) :
    ∀ (st st' : ExecState),
      execGo nodesMap reg config true [] rid order st = .ok st' →
      (∀ n v, alookup st.nodeOutputs n = some v →
          alookup st.store (artifactKey rid n) = some (jsonRoundTrip v)) →
      (∀ n v, alookup st'.nodeOutputs n = some v →
          alookup st'.store (artifactKey rid n) = some (jsonRoundTrip v)) := by
  induction order with
  | nil =>
      intro st st' h hinv
      simp only [execGo] at h
      injection h with h
      exact h ▸ hinv
  | cons m rest ih =>
      intro st st' h hinv
      simp only [execGo] at h
      cases hstep : execNode nodesMap reg config true [] rid st m with
      | error e => rw [hstep] at h; simp at h
      | ok st1 =>
          rw [hstep] at h
          dsimp only at h
          refine ih st1 st' h ?_
          rcases execNode_cases nodesMap reg config true [] rid st m st1 hstep with
            ⟨v, hmc, _, _, _⟩ | ⟨node, t, _, _, hst1⟩
          · exact absurd hmc (List.not_mem_nil m)
          · rw [hst1]
            dsimp only [execResult]
            intro n v hn
            rw [aupsert_alookup] at hn
            rw [if_pos rfl, aupsert_alookup]
            by_cases hm : m = n
            · rw [if_pos hm] at hn
              injection hn with hn
              rw [if_pos (by rw [hm]), ← hn]
            · rw [if_neg hm] at hn
              rw [if_neg (fun hk => hm (artifactKey_inj rid m n hk))]
              exact hinv n v hn

/-- With no nodes cached, every bound node output is an output bag (the
executor only ever assigns `output_io.data`, a dict). -/
theorem execGo_run1_dict (nodesMap : List (String × GNode)) (reg : Registry)
    (config : List (String × PyValue)) (ad : Bool) (rid : String) (order : List String) :
    ∀ (st st' : ExecState),
      execGo nodesMap reg config ad [] rid order st = .ok st' →
      (∀ n v, alookup st.nodeOutputs n = some v → ∃ es, v = PyValue.dict es) →
      (∀ n v, alookup st'.nodeOutputs n = some v → ∃ es, v = PyValue.dict es) := by
  induction order with
  | nil =>
      intro st st' h hinv
      simp only [execGo] at h
      injection h with h
      exact h ▸ hinv
  | cons m rest ih =>
      intro st st' h hinv
      simp only [execGo] at h
      cases hstep : execNode nodesMap reg config ad [] rid st m with
      | error e => rw [hstep] at h; simp at h
      | ok st1 =>
          rw [hstep] at h
          dsimp only at h
          refine ih st1 st' h ?_
          rcases execNode_cases nodesMap reg config ad [] rid st m st1 hstep with
            ⟨v, hmc, _, _, _⟩ | ⟨node, t, _, _, hst1⟩
          · exact absurd hmc (List.not_mem_nil m)
          · rw [hst1]
            dsimp only [execResult]
            intro n v hn
            rw [aupsert_alookup] at hn
            by_cases hm : m = n
            · rw [if_pos hm] at hn
              injection hn with hn
              exact ⟨_, hn.symm⟩
            · rw [if_neg hm] at hn
              exact hinv n v hn

/-- With every node of the order cached and its artifact present and
non-null, the run succeeds with no invocations, an untouched store and
artifact map, and binds each ordered node to its stored artifact. -/
theorem execGo_all_cached (nodesMap : List (String × GNode)) (reg : Registry)
    (config : List (String × PyValue)) (cached : List String) (rid : String)
    (V : String → Option PyValue) (order : List String) :
    ∀ (st : ExecState),
      (∀ n ∈ order, n ∈ cached) →
      (∀ n ∈ order, ∃ v, V n = some v ∧ v ≠ PyValue.none
          ∧ alookup st.store (artifactKey rid n) = some v) →
      ∃ st', execGo nodesMap reg config true cached rid order st = .ok st'
        ∧ st'.store = st.store ∧ st'.invoked = st.invoked
        ∧ st'.allArtifacts = st.allArtifacts
        ∧ ∀ n, alookup st'.nodeOutputs n =
            if n ∈ order then V n else alookup st.nodeOutputs n := by
  induction order with
  | nil =>
      intro st _ _
      refine ⟨st, rfl, rfl, rfl, rfl, fun n => ?_⟩
      simp
  | cons m rest ih =>
      intro st hc hcov
      obtain ⟨v, hV, hVn, hS⟩ := hcov m (List.mem_cons_self m rest)
      have hstep := execNode_cache_hit nodesMap reg config cached rid st m v
        (hc m (List.mem_cons_self m rest)) hVn hS
      obtain ⟨st', hgo, hst, hinv, hart, hout⟩ :=
        ih { st with nodeOutputs := aupsert st.nodeOutputs m v }
          (fun n hn => hc n (List.mem_cons_of_mem m hn))
          (fun n hn => hcov n (List.mem_cons_of_mem m hn))
      refine ⟨st', ?_, hst, hinv, hart, ?_⟩
      · simp only [execGo]
        rw [hstep]
        exact hgo
      · intro n
        rw [hout n]
        by_cases hr : n ∈ rest
        · rw [if_pos hr, if_pos (List.mem_cons_of_mem m hr)]
        · rw [if_neg hr]
          dsimp only
          rw [aupsert_alookup]
          by_cases hm : m = n
          · rw [if_pos hm, if_pos (by rw [← hm]; exact List.mem_cons_self m rest), ← hV, hm]
          · rw [if_neg hm, if_neg (by
              intro hmem
              rcases List.mem_cons.mp hmem with heq | hmem
              · exact hm heq.symm
              · exact hr hmem)]


/-- `allValsPure` gives pointwise purity of looked-up values. -/
theorem allValsPure_spec (l : List (String × PyValue)) :
    allValsPure l = true → ∀ n v, alookup l n = some v → jsonPure v = true := by
  induction l with
  | nil => intro _ n v hv; simp [alookup] at hv
  | cons p rest ih =>
      obtain ⟨k, w⟩ := p
      intro h n v hv
      simp only [allValsPure, List.all_cons, Bool.and_eq_true] at h
      simp only [alookup] at hv
      by_cases hk : k = n
      · rw [if_pos hk] at hv
        injection hv with hv
        subst hv
        exact h.1
      · rw [if_neg hk] at hv
        exact ih h.2 n v hv

/-! ## Claim C1: the resolved inputs bag -/

/-- C1 (amended): for every node executed rather than served from cache, the
resolved inputs bag passed to the bound unit contains exactly the node's
wiring keys -- the keys of its `inputs` mapping in the graph definition, which
the executor iterates instead of the unit's declared required inputs -- and an
unresolved reference (an absent configuration key, an absent referenced node,
or an absent output key) resolves to Python `None` rather than raising. -/
theorem resolved_inputs_bag (g : Graph) (reg : Registry) (ad : Bool)
    (cached : List String) (rid : String) (config store₀ : List (String × PyValue))
    (st : ExecState) (h : execute g reg ad cached rid config store₀ = .ok st) :
    (∀ rec ∈ st.invoked, ∃ node, alookup (nodesMapOf g) rec.node = some node
        ∧ pdKeys rec.inputBag = node.inputs.map Prod.fst
        ∧ ∃ outs, rec.inputBag = resolveBag node.inputs config outs)
    ∧ (∀ k outs, alookup config k = Option.none →
        resolve_reference (.str ("$config." ++ k)) config outs = PyValue.none)
    ∧ (∀ (s : String) ref a b outs, s.data = '$' :: ref →
        "config.".data.isPrefixOf ref = false →
        splitDot1 ref = some (a, b) →
        alookup outs (String.mk a) = Option.none →
        resolve_reference (.str s) config outs = PyValue.none)
    ∧ (∀ (s : String) ref a b outs es, s.data = '$' :: ref →
        "config.".data.isPrefixOf ref = false →
        splitDot1 ref = some (a, b) →
        alookup outs (String.mk a) = some (.dict es) →
        pdGet es (String.mk b) = Option.none →
        resolve_reference (.str s) config outs = PyValue.none) := by
  unfold execute at h
  refine ⟨?_, ?_, ?_, ?_⟩
  · intro rec hrec
    have hall := execGo_invoked_inv (nodesMapOf g) reg config ad cached rid
      (topological_sort (build_dependency_graph g)) ⟨[], [], store₀, []⟩ st h
      (by intro r hr; simp at hr)
    obtain ⟨node, outs, hnode, hbag⟩ := hall rec hrec
    exact ⟨node, hnode, by rw [hbag, pdKeys_resolveBag], outs, hbag⟩
  · intro k outs hk
    rw [resolve_config_eq, hk]
    rfl
  · intro s ref a b outs hdata hpre hsplit halo
    simp only [resolve_reference, hdata, resolveChars, hpre, Bool.false_eq_true,
      if_false, hsplit, halo]
    rfl
  · intro s ref a b outs es hdata hpre hsplit halo hget
    simp only [resolve_reference, hdata, resolveChars, hpre, Bool.false_eq_true,
      if_false, hsplit, halo]
    simp only [Option.getD_some, pyGet, hget]
    rfl

/-- Witness for C1 on a concrete successful run. -/
theorem resolved_inputs_bag_witness :
    execute gSolo regEcho true [] "r" [] [] = Except.ok st1Solo
    ∧ ((∀ rec ∈ st1Solo.invoked, ∃ node, alookup (nodesMapOf gSolo) rec.node = some node
          ∧ pdKeys rec.inputBag = node.inputs.map Prod.fst
          ∧ ∃ outs, rec.inputBag = resolveBag node.inputs [] outs)
       ∧ (∀ k outs, alookup ([] : List (String × PyValue)) k = Option.none →
            resolve_reference (.str ("$config." ++ k)) [] outs = PyValue.none)
       ∧ (∀ (s : String) ref a b outs, s.data = '$' :: ref →
            "config.".data.isPrefixOf ref = false →
            splitDot1 ref = some (a, b) →
            alookup outs (String.mk a) = Option.none →
            resolve_reference (.str s) [] outs = PyValue.none)
       ∧ (∀ (s : String) ref a b outs es, s.data = '$' :: ref →
            "config.".data.isPrefixOf ref = false →
            splitDot1 ref = some (a, b) →
            alookup outs (String.mk a) = some (.dict es) →
            pdGet es (String.mk b) = Option.none →
            resolve_reference (.str s) [] outs = PyValue.none)) :=
  ⟨rfl, resolved_inputs_bag gSolo regEcho true [] "r" [] [] st1Solo rfl⟩

/-- Counterexample to C1 as stated: a graph that validates although its node
wires the key `other` while the bound unit declares the required input
`value`; the invoked unit receives the bag keyed by the wiring, not by its
declaration. -/
theorem resolved_inputs_declared_counterexample :
    validate_graph gMismatch regEcho = Except.ok ()
    ∧ execute gMismatch regEcho false [] "r" [] [] = Except.ok stMismatch
    ∧ stMismatch.invoked.map (fun r => pdKeys r.inputBag) = [["other"]]
    ∧ regEcho "echo" = some echoT
    ∧ echoT.inputs = ["value"]
    ∧ (["other"] : List String) ≠ ["value"] :=
  ⟨rfl, rfl, rfl, rfl, rfl, by decide⟩

/-! ## Claim C6: cache hits -/

/-- C6 (amended): for a cached node whose artifact exists at
`(run id, node name)` with content other than JSON `null`, the executor
adopts the loaded artifact as the node's output bag, never invokes the
node's unit, and leaves that artifact entry exactly as it was.  An artifact
whose content is `null` loads as Python `None` and is a cache miss: the unit
runs and the artifact is rewritten. -/
theorem cached_node_frame (g : Graph) (reg : Registry) (cached : List String)
    (rid : String) (config store₀ : List (String × PyValue)) (st : ExecState)
    (n : String) (j : PyValue)
    (h : execute g reg true cached rid config store₀ = .ok st)
    (hn : n ∈ cached)
    (hjn : j ≠ PyValue.none)
    (hj : alookup store₀ (artifactKey rid n) = some j) :
    (n ∈ topological_sort (build_dependency_graph g) →
        alookup st.nodeOutputs n = some j)
    ∧ (∀ rec ∈ st.invoked, rec.node ≠ n)
    ∧ alookup st.store (artifactKey rid n) = some j := by
  unfold execute at h
  obtain ⟨h1, h2, h3, _⟩ := execGo_cached_frame (nodesMapOf g) reg config cached rid n j
    hn hjn (topological_sort (build_dependency_graph g)) ⟨[], [], store₀, []⟩ st h hj
    (by intro rec hrec; simp at hrec)
  exact ⟨h3, h2, h1⟩

/-- Witness for C6 on a concrete run with a prefilled artifact store. -/
theorem cached_node_frame_witness :
    execute gSolo regEcho true ["n"] "r" [] [("r_n", PyValue.dict .nil)] = Except.ok stC6
    ∧ (("n" ∈ topological_sort (build_dependency_graph gSolo) →
          alookup stC6.nodeOutputs "n" = some (PyValue.dict .nil))
       ∧ (∀ rec ∈ stC6.invoked, rec.node ≠ "n")
       ∧ alookup stC6.store (artifactKey "r" "n") = some (PyValue.dict .nil)) :=
  ⟨rfl, cached_node_frame gSolo regEcho ["n"] "r" [] [("r_n", .dict .nil)] stC6 "n"
    (.dict .nil) rfl (List.mem_cons_self "n" [])
    (fun hq => PyValue.noConfusion hq) rfl⟩

/-- Counterexample to C6 as stated: node `n` is cached and a prior artifact
exists at its key, but its content is JSON `null`, so the executor treats it
as a cache miss -- the unit is invoked and the artifact is overwritten. -/
theorem null_artifact_cache_miss_counterexample :
    execute gSolo regEcho true ["n"] "r" [] [("r_n", PyValue.none)] = Except.ok stNullC6
    ∧ alookup [("r_n", PyValue.none)] (artifactKey "r" "n") = some PyValue.none
    ∧ stNullC6.invoked.map (fun r => r.node) = ["n"]
    ∧ alookup stNullC6.store (artifactKey "r" "n")
        = some (.dict (.cons "result" (.dict (.cons "value" (.str "lit") .nil)) .nil))
    ∧ alookup stNullC6.store (artifactKey "r" "n") ≠ some PyValue.none := by
  refine ⟨rfl, rfl, rfl, rfl, ?_⟩
  intro hq
  rw [show alookup stNullC6.store (artifactKey "r" "n")
      = some (PyValue.dict (.cons "result" (.dict (.cons "value" (.str "lit") .nil)) .nil))
    from rfl] at hq
  simp at hq

/-! ## Claim C9: provenance of the file-artifact map -/

/-- C9: the final file-artifact map is exactly the in-order merge of the
artifacts returned by the units actually invoked in this run; every surviving
entry comes from some invocation record.  A cached node, never being invoked,
contributes none of its original artifacts. -/
theorem artifacts_only_from_invoked (g : Graph) (reg : Registry) (ad : Bool)
    (cached : List String) (rid : String) (config store₀ : List (String × PyValue))
    (st : ExecState) (h : execute g reg ad cached rid config store₀ = .ok st) :
    st.allArtifacts = artFold st.invoked []
    ∧ ∀ kk v, alookup st.allArtifacts kk = some v →
        ∃ rec ∈ st.invoked, ∃ p ∈ rec.outArtifacts, p.1 = kk ∧ p.2 = v := by
  unfold execute at h
  obtain ⟨recs, hinv, hart⟩ := execGo_artifacts (nodesMapOf g) reg config ad cached rid
    (topological_sort (build_dependency_graph g)) ⟨[], [], store₀, []⟩ st h
  dsimp only at hinv hart
  have hrecs : st.invoked = recs := by simpa using hinv
  constructor
  · rw [hart, hrecs]
  · intro kk v hv
    rw [hart] at hv
    rcases artFold_lookup recs [] kk v hv with hl | hacc
    · rw [hrecs]
      exact hl
    · simp [alookup] at hacc

/-- Witness for C9: a run whose only node is cached produces an empty artifact
map even though its unit would produce a file artifact. -/
theorem artifacts_only_from_invoked_witness :
    execute gArt regArt true ["m"] "rr" [] [("rr_m", PyValue.dict .nil)] = Except.ok stArt
    ∧ stArt.invoked = []
    ∧ stArt.allArtifacts = []
    ∧ (stArt.allArtifacts = artFold stArt.invoked []
       ∧ ∀ kk v, alookup stArt.allArtifacts kk = some v →
           ∃ rec ∈ stArt.invoked, ∃ p ∈ rec.outArtifacts, p.1 = kk ∧ p.2 = v) :=
  ⟨rfl, rfl, rfl,
   artifacts_only_from_invoked gArt regArt true ["m"] "rr" [] [("rr_m", .dict .nil)]
     stArt rfl⟩

/-! ## Claim C5: idempotence of a fully cached re-run -/

/-- C5 (amended): re-running a graph with the same run id and artifact
directory, from the first run's store and with every ordered node cached,
reproduces the first run's per-node outputs without invoking any unit,
provided every first-run output value lies in the JSON-native fragment; each
persisted artifact then round-trips losslessly into the cache hit.  Outside
that fragment `default=str` serialization makes the round trip lossy. -/
theorem cached_rerun_idempotent (g : Graph) (reg : Registry) (cached₂ : List String)
    (rid : String) (config store₀ : List (String × PyValue)) (st₁ : ExecState)
    (h₁ : execute g reg true [] rid config store₀ = .ok st₁)
    (hpure : ∀ n v, alookup st₁.nodeOutputs n = some v → jsonPure v = true)
    (hc : ∀ n ∈ topological_sort (build_dependency_graph g), n ∈ cached₂) :
    (∀ n v, alookup st₁.nodeOutputs n = some v →
        alookup st₁.store (artifactKey rid n) = some v)
    ∧ ∃ st₂, execute g reg true cached₂ rid config st₁.store = .ok st₂
        ∧ (∀ n, alookup st₂.nodeOutputs n = alookup st₁.nodeOutputs n)
        ∧ st₂.invoked = [] := by
  unfold execute at h₁ ⊢
  have hstore : ∀ n v, alookup st₁.nodeOutputs n = some v →
      alookup st₁.store (artifactKey rid n) = some v := by
    intro n v hv
    have hs := execGo_run1_store (nodesMapOf g) reg config rid
      (topological_sort (build_dependency_graph g)) ⟨[], [], store₀, []⟩ st₁ h₁
      (by intro n v hv; simp [alookup] at hv) n v hv
    rwa [jsonRoundTrip_eq_self v (hpure n v hv)] at hs
  refine ⟨hstore, ?_⟩
  have houts := execGo_outputs (nodesMapOf g) reg config true [] rid
    (topological_sort (build_dependency_graph g)) ⟨[], [], store₀, []⟩ st₁ h₁
  obtain ⟨st₂, hgo, _, hinv, _, hout⟩ := execGo_all_cached (nodesMapOf g) reg config
    cached₂ rid (fun n => alookup st₁.nodeOutputs n)
    (topological_sort (build_dependency_graph g)) ⟨[], [], st₁.store, []⟩ hc
    (by
      intro n hn
      obtain ⟨v, hv⟩ := (houts n).1 hn
      obtain ⟨es, hes⟩ := execGo_run1_dict (nodesMapOf g) reg config true rid
        (topological_sort (build_dependency_graph g)) ⟨[], [], store₀, []⟩ st₁ h₁
        (by intro n v hv; simp [alookup] at hv) n v hv
      refine ⟨v, hv, ?_, hstore n v hv⟩
      rw [hes]
      exact fun hq => PyValue.noConfusion hq)
  refine ⟨st₂, hgo, ?_, by rw [hinv]⟩
  intro n
  rw [hout n]
  by_cases hn : n ∈ topological_sort (build_dependency_graph g)
  · rw [if_pos hn]
  · rw [if_neg hn, (houts n).2 hn]

/-- Witness for C5 on a concrete run whose outputs are JSON-native. -/
theorem cached_rerun_idempotent_witness :
    execute gSolo regEcho true [] "r" [] [] = Except.ok st1Solo
    ∧ allValsPure st1Solo.nodeOutputs = true
    ∧ ((∀ n v, alookup st1Solo.nodeOutputs n = some v →
          alookup st1Solo.store (artifactKey "r" n) = some v)
       ∧ ∃ st₂, execute gSolo regEcho true ["n"] "r" [] st1Solo.store = .ok st₂
           ∧ (∀ n, alookup st₂.nodeOutputs n = alookup st1Solo.nodeOutputs n)
           ∧ st₂.invoked = []) :=
  ⟨rfl, rfl,
   cached_rerun_idempotent gSolo regEcho ["n"] "r" [] [] st1Solo rfl
     (allValsPure_spec st1Solo.nodeOutputs rfl) (by decide)⟩

/-- Counterexample to C5 as stated: a unit output outside the JSON-native
fragment is altered by `default=str` serialization, so the fully cached
re-run reproduces a different value for the node. -/
theorem cache_roundtrip_lossy_counterexample :
    execute gImpure regUnit true [] "r" [] [] = Except.ok stImpure1
    ∧ execute gImpure regUnit true ["n"] "r" [] stImpure1.store = Except.ok stImpure2
    ∧ stImpure2.invoked = []
    ∧ alookup stImpure1.nodeOutputs "n" = some (.dict (.cons "v" (.other "x") .nil))
    ∧ alookup stImpure2.nodeOutputs "n" = some (.dict (.cons "v" (.str "x") .nil))
    ∧ alookup stImpure1.nodeOutputs "n" ≠ alookup stImpure2.nodeOutputs "n" := by
  refine ⟨rfl, rfl, rfl, rfl, rfl, ?_⟩
  intro hcontra
  rw [show alookup stImpure1.nodeOutputs "n"
        = some (PyValue.dict (.cons "v" (.other "x") .nil)) from rfl,
     show alookup stImpure2.nodeOutputs "n"
        = some (PyValue.dict (.cons "v" (.str "x") .nil)) from rfl] at hcontra
  simp at hcontra

end Murmur
